import Mathlib

/-!
Shallow embedding of the Enochian translation engine
(`src/lib/translator.ts`, latest revision: the version with negation-prefix
handling, single-letter root preference and verbatim word preservation).

Strings are modelled as `List Char` (`Str`).  JavaScript `Map` objects are
modelled as association lists with insertion-order iteration, `set`
overwriting the value in place, and `get` returning the first (unique)
binding.  Plain objects used as records (`wordAnalysis`,
`constructionDetails`, `phraseMatches`) get the same treatment.

Numeric match scores (ratios of string lengths compared against the 0.5 /
0.7 thresholds) are modelled as exact fractions (`Score`, a numerator /
denominator pair compared by cross-multiplication); the JavaScript engine
uses IEEE doubles, whose divisions are exactly rounded, and none of the
verified properties depends on sub-ulp behaviour of those comparisons.

The explanation strings the engine builds from template literals are
modelled structurally: each template becomes one constructor of
`Explanation`, carrying exactly the interpolated data.

The one partial operation of the engine - `convertToSymbols` reads
`enochianLetterMap['g'].symbol`, which throws a `TypeError` when the root
table has no entry for `g` - is modelled with `Except Unit`, `.error ()`
standing for the thrown exception.  The word-boundary regex replacement in
`generateAlternateFormats` is modelled by `replaceWB` (literal pattern,
`\b` = ASCII word-character boundary); `RegExp` compilation errors for
patterns containing metacharacters are not modelled, and every theorem
touching that code path restricts the input alphabet so that no
metacharacter can reach a pattern.
-/

namespace Enoch

abbrev Str := List Char

/-- Whitespace characters recognised by `\s`, `trim` (core ASCII set). -/
def isWSChar (c : Char) : Bool :=
  c = ' ' || c = '\t' || c = '\n' || c = '\r' || c = '\x0b' || c = '\x0c'

/-- The punctuation class `[.,;:!?'"()-]` of `translateWord`. -/
def isPunctChar (c : Char) : Bool :=
  c = '.' || c = ',' || c = ';' || c = ':' || c = '!' || c = '?' ||
  c = '\'' || c = '"' || c = '(' || c = ')' || c = '-'

/-- ASCII letter, as tested by `/[a-z]/i`. -/
def isAsciiAlpha (c : Char) : Bool :=
  ('a' ≤ c && c ≤ 'z') || ('A' ≤ c && c ≤ 'Z')

def isDigitChar (c : Char) : Bool := '0' ≤ c && c ≤ '9'

/-- Word character for the `\b` regex assertion. -/
def isWordChar (c : Char) : Bool := isAsciiAlpha c || isDigitChar c || c = '_'

/-- ASCII `toLowerCase` on one character. -/
def lowerChar (c : Char) : Char :=
  if 'A' ≤ c && c ≤ 'Z' then Char.ofNat (c.toNat + 32) else c

/-- ASCII `toUpperCase` on one character. -/
def upperChar (c : Char) : Char :=
  if 'a' ≤ c && c ≤ 'z' then Char.ofNat (c.toNat - 32) else c

def toLowerS (s : Str) : Str := s.map lowerChar

/-- Drop a trailing run of whitespace (structural recursion). -/
def dropTrailingWS : Str → Str
  | [] => []
  | c :: rest =>
    match dropTrailingWS rest with
    | [] => if isWSChar c then [] else [c]
    | r => c :: r

/-- JavaScript `String.prototype.trim`. -/
def trimS (s : Str) : Str := dropTrailingWS (s.dropWhile isWSChar)

/-- Auxiliary for `replace(/\s+/g, ' ')`: the flag records whether the
previous character was part of a whitespace run already replaced. -/
def collapseWSAux : Bool → Str → Str
  | _, [] => []
  | prevWS, c :: rest =>
    if isWSChar c then
      if prevWS then collapseWSAux true rest
      else ' ' :: collapseWSAux true rest
    else c :: collapseWSAux false rest

/-- JavaScript `replace(/\s+/g, ' ')`: every whitespace run becomes one space. -/
def collapseWS (s : Str) : Str := collapseWSAux false s

/-- The input cleaning of `translate` / `processText`:
`text.trim().replace(/\s+/g, ' ')`. -/
def normalizeWS (s : Str) : Str := collapseWS (trimS s)

/-- Auxiliary for `split(/\s+/).filter(w => w.length > 0)`: accumulates the
current token in reverse. -/
def splitWSAux : Str → Str → List Str
  | cur, [] => if cur = [] then [] else [cur.reverse]
  | cur, c :: rest =>
    if isWSChar c then
      if cur = [] then splitWSAux [] rest
      else cur.reverse :: splitWSAux [] rest
    else splitWSAux (c :: cur) rest

/-- Tokenisation: split on whitespace runs, dropping empty pieces. -/
def splitWSTokens (s : Str) : List Str := splitWSAux [] s

/-- Substring containment, JavaScript `hay.includes(needle)`. -/
def containsSub (hay needle : Str) : Bool := decide (needle <:+: hay)

def startsWithS (s p : Str) : Bool := decide (p <+: s)

def endsWithS (s p : Str) : Bool := decide (p <:+ s)

/-- JavaScript `Map.prototype.get` (also property read on plain objects). -/
def jsGet {α : Type} : List (Str × α) → Str → Option α
  | [], _ => none
  | (k', v) :: rest, k => if k' = k then some v else jsGet rest k

/-- JavaScript `Map.prototype.set` / object property write: overwrite in
place if the key exists (keeping its insertion position), else append. -/
def jsSet {α : Type} : List (Str × α) → Str → α → List (Str × α)
  | [], k, v => [(k, v)]
  | (k', v') :: rest, k, v =>
    if k' = k then (k', v) :: rest else (k', v') :: jsSet rest k v

/-- `map.get(k)?.push(x)`: append to the list at `k`, no-op when absent. -/
def jsPush {α : Type} : List (Str × List α) → Str → α → List (Str × List α)
  | [], _, _ => []
  | (k', l) :: rest, k, x =>
    if k' = k then (k', l ++ [x]) :: rest else (k', l) :: jsPush rest k x

/-- A match score `num / den` (the JavaScript engine divides doubles; the
model keeps the exact fraction and compares by cross-multiplication). -/
structure Score where
  num : Nat
  den : Nat
  deriving DecidableEq, Repr

/-- Score as a ratio of lengths. -/
def mkScore (a b : Nat) : Score := ⟨a, b⟩

/-- Exact comparison `a < b` of two scores by cross-multiplication (for
positive denominators this is exactly the real-number comparison of the
two ratios; a zero denominator behaves like the IEEE infinity/NaN the
JavaScript division would produce: nothing is below a zero numerator /
zero denominator score, everything finite is below `n/0` with `n > 0`). -/
def scoreLT (a b : Score) : Bool := a.num * b.den < b.num * a.den

/-- Decidable equality for `Except` results (not provided by the core
library), needed to state concrete evaluations. -/
instance {eps alpha : Type} [DecidableEq eps] [DecidableEq alpha] :
    DecidableEq (Except eps alpha) := fun x y =>
  match x, y with
  | Except.error a, Except.error b =>
    if h : a = b then Decidable.isTrue (by rw [h])
    else Decidable.isFalse (by intro hc; cases hc; exact h rfl)
  | Except.error _, Except.ok _ => Decidable.isFalse (by intro hc; cases hc)
  | Except.ok _, Except.error _ => Decidable.isFalse (by intro hc; cases hc)
  | Except.ok a, Except.ok b =>
    if h : a = b then Decidable.isTrue (by rw [h])
    else Decidable.isFalse (by intro hc; cases hc; exact h rfl)

/-! ## Data model -/

structure EnochianWordT where
  word : Str
  meaning : Str
  deriving DecidableEq, Repr

structure EnochianRootT where
  english_letter : Str
  enochian_name : Str
  numeric_value : Int
  meaning : Str
  symbol : Str
  deriving DecidableEq, Repr

/-- Field order follows the source: direct, partial, missing, constructed,
total.  The `partial` field is renamed `partialCt` (reserved word). -/
structure Stats where
  direct : Nat
  partialCt : Nat
  missing : Nat
  constructed : Nat
  total : Nat
  deriving DecidableEq, Repr

inductive Method where
  | direct
  | partialM
  | constructed
  | missing
  deriving DecidableEq, Repr

/-- Structural model of the explanation strings; one constructor per
template literal in the source, carrying the interpolated data. -/
inductive Explanation where
  | completePhrase (text word : Str)
  | phraseSimilar (text matched word : Str)
  | letterName (w name meaningHead : Str)
  | singleLetterLexicon (w m : Str)
  | directMatch (w m : Str)
  | pluralMatch (w singular m : Str)
  | stemMatch (w stemmed m : Str)
  | wordInMeaning (w meaning m : Str)
  | meaningInWord (meaning w m : Str)
  | negationDirect (fullPfx w base rootWordMatch neg : Str)
  | negationStem (fullPfx w base stemmedRoot neg : Str)
  | lexiconAppears (w meaning m : Str)
  | preservedDirect (w final : Str)
  | preservedWithRoots (roots : List EnochianRootT)
  | missingExpl
  deriving DecidableEq, Repr

structure Detail where
  original : Str
  result : Str
  method : Method
  explanation : Explanation
  originalRoots : Option (List EnochianRootT)
  deriving DecidableEq, Repr

structure RootAnalysisEntry where
  letter : Str
  root : Option EnochianRootT
  deriving DecidableEq, Repr

structure TranslationResultT where
  translationText : Str
  phoneticText : Str
  symbolText : Str
  stats : Stats
  wordAnalysis : List (Str × List RootAnalysisEntry)
  constructionDetails : List (Str × Detail)
  phraseMatches : List (Str × Str)
  deriving DecidableEq, Repr

structure TranslationOptions where
  fuzzyMatching : Bool
  pluralHandling : Bool
  contextAware : Bool
  rootConstruction : Bool
  checkPhrases : Bool
  deriving DecidableEq, Repr

def defaultOptions : TranslationOptions :=
  ⟨true, true, true, true, true⟩

structure Translator where
  lexiconData : List EnochianWordT
  rootData : List EnochianRootT
  enochianLetterMap : List (Str × (Str × Str))
  meaningToWordMap : List (Str × Str)
  wordToMeaningMap : List (Str × List Str)
  stemMap : List (Str × List Str)
  phraseMap : List (Str × Str)
  deriving DecidableEq, Repr

/-! ## Stemmer -/

/-- `stemWord`: lowercase + trim, keep words of length ≤ 3, else strip
exactly one suffix in priority order `s` (not `ss`), `ing`, `ed`, `ly`. -/
def stemWord (w : Str) : Str :=
  let w := trimS (toLowerS w)
  if w.length ≤ 3 then w
  else if endsWithS w ['s'] && !endsWithS w ['s', 's'] then w.take (w.length - 1)
  else if endsWithS w ['i', 'n', 'g'] then w.take (w.length - 3)
  else if endsWithS w ['e', 'd'] then w.take (w.length - 2)
  else if endsWithS w ['l', 'y'] then w.take (w.length - 2)
  else w

/-! ## Index construction (`initializeMaps`) -/

/-- Strip a leading `-` and the whitespace after it (`replace(/^-\s*/, '')`,
a single non-global replacement anchored at the start). -/
def stripLeadingDash : Str → Str
  | '-' :: rest => rest.dropWhile isWSChar
  | s => s

/-- Find the first `)` and return what follows it. -/
def dropThroughClose : Str → Option Str
  | [] => none
  | c :: rest => if c = ')' then some rest else dropThroughClose rest

theorem dropThroughClose_length {s t : Str} (h : dropThroughClose s = some t) :
    t.length < s.length := by
  induction s with
  | nil => simp [dropThroughClose] at h
  | cons c rest ih =>
    simp only [dropThroughClose] at h
    split at h
    · cases h
      simp [List.length_cons]
    · have := ih h
      simp only [List.length_cons]
      omega

/-- Remove parenthetical runs, `replace(/\(.*?\)/g, '')`: each `(` that has
a later `)` is removed together with everything up to the first such `)`.
The recursion is driven by a fuel that starts at the string length; every
step consumes at least one character (`dropThroughClose_length`), so the
fuel never runs out before the string does. -/
def removeParensFuel : Nat → Str → Str
  | _, [] => []
  | 0, s => s
  | fuel + 1, '(' :: rest =>
    (match dropThroughClose rest with
     | some rest' => removeParensFuel fuel rest'
     | none => '(' :: rest)
  | fuel + 1, c :: rest => c :: removeParensFuel fuel rest

def removeParens (s : Str) : Str := removeParensFuel s.length s

/-- Meaning clean-up in `initializeMaps`: lowercase, strip a leading dash,
remove parentheticals, trim. -/
def cleanMeaning (m : Str) : Str :=
  trimS (removeParens (stripLeadingDash (toLowerS m)))

/-- Split at every `,` or `;` (`split(/,|;/)`, empty pieces kept). -/
def splitCommaSemi : Str → List Str
  | [] => [[]]
  | c :: rest =>
    if c = ',' || c = ';' then [] :: splitCommaSemi rest
    else
      match splitCommaSemi rest with
      | [] => [[c]]
      | p :: ps => (c :: p) :: ps

/-- Split at every single space (`split(' ')`, empty pieces kept). -/
def splitSpace : Str → List Str
  | [] => [[]]
  | c :: rest =>
    if c = ' ' then [] :: splitSpace rest
    else
      match splitSpace rest with
      | [] => [[c]]
      | p :: ps => (c :: p) :: ps

/-- The four lexicon-derived maps, threaded through `initializeMaps`. -/
structure LexMaps where
  mtw : List (Str × Str)
  wtm : List (Str × List Str)
  stemM : List (Str × List Str)
  phraseM : List (Str × Str)
  deriving DecidableEq, Repr

/-- Processing of the sub-words of a multi-word meaning: every word of
length > 2 contributes its stem to the stem map. -/
def addSubWordStems (word : Str) (stemM : List (Str × List Str)) :
    List Str → List (Str × List Str)
  | [] => stemM
  | sw :: rest =>
    if 2 < sw.length then
      let wordStem := stemWord sw
      let stemM :=
        if wordStem ≠ [] && (jsGet stemM wordStem).isNone then
          jsSet stemM wordStem []
        else stemM
      let stemM := if wordStem ≠ [] then jsPush stemM wordStem word else stemM
      addSubWordStems word stemM rest
    else addSubWordStems word stemM rest

/-- Processing of one cleaned meaning part for one lexicon entry. -/
def addMeaningPart (word : Str) (acc : LexMaps × List Str) (part : Str) :
    LexMaps × List Str :=
  let m := trimS part
  if m = [] then acc
  else
    let maps := acc.1
    let mtw := jsSet maps.mtw m word
    let phraseM := jsSet maps.phraseM m word
    let meanings := acc.2 ++ [m]
    let stem := stemWord m
    let stemM :=
      if stem ≠ [] && stem ≠ m then
        let s1 := if (jsGet maps.stemM stem).isNone then jsSet maps.stemM stem []
                  else maps.stemM
        jsPush s1 stem word
      else maps.stemM
    let stemM :=
      if containsSub m [' '] then addSubWordStems word stemM (splitSpace m)
      else stemM
    (⟨mtw, maps.wtm, stemM, phraseM⟩, meanings)

/-- Processing of one lexicon entry in `initializeMaps`. -/
def addLexiconEntry (maps : LexMaps) (entry : EnochianWordT) : LexMaps :=
  let cleaned := cleanMeaning entry.meaning
  let res := (splitCommaSemi cleaned).foldl (addMeaningPart entry.word) (maps, [])
  let maps := res.1
  ⟨maps.mtw, jsSet maps.wtm entry.word res.2, maps.stemM, maps.phraseM⟩

/-- The letter map, built by `reduce` over the root table (object write =
overwrite; empty letters skipped). -/
def buildLetterMap (roots : List EnochianRootT) : List (Str × (Str × Str)) :=
  roots.foldl
    (fun map root =>
      let letter := toLowerS root.english_letter
      if letter ≠ [] then jsSet map letter (root.enochian_name, root.symbol)
      else map)
    []

/-- The constructor + `initializeMaps`. -/
def mkTranslator (lexiconData : List EnochianWordT)
    (rootData : List EnochianRootT) : Translator :=
  let maps := lexiconData.foldl addLexiconEntry ⟨[], [], [], []⟩
  ⟨lexiconData, rootData, buildLetterMap rootData,
    maps.mtw, maps.wtm, maps.stemM, maps.phraseM⟩

/-! ## Root lookup and single-letter handling -/

/-- Case-insensitive scan of the raw root list (`findRootForLetter`). -/
def findRootForLetter (T : Translator) (letter : Str) : Option EnochianRootT :=
  T.rootData.find? (fun root => toLowerS root.english_letter = toLowerS letter)

/-- `meaning.split(':')[0].trim()`. -/
def splitColonHeadTrim (m : Str) : Str :=
  trimS (m.takeWhile (fun c => c ≠ ':'))

structure SingleLetterMatch where
  result : Str
  method : Method
  explanation : Explanation
  deriving DecidableEq, Repr

/-- Whether a string is exactly one ASCII letter (`/^[a-z]$/i` on a
length-1 string, and the `word.length === 1 && /[a-z]/i.test(word)` test). -/
def singleAlpha : Str → Bool
  | [c] => isAsciiAlpha c
  | _ => false

/-- `handleSingleLetterWord`: prefer the root-table letter name (a `direct`
match), fall back to an exact lexicon lookup only when no root exists. -/
def handleSingleLetterWord (T : Translator) (word : Str) :
    Option SingleLetterMatch :=
  if singleAlpha word then
    match findRootForLetter T word with
    | some root =>
      some ⟨root.enochian_name, Method.direct,
        Explanation.letterName word root.enochian_name
          (splitColonHeadTrim root.meaning)⟩
    | none =>
      match jsGet T.meaningToWordMap word with
      | some m =>
        some ⟨m, Method.direct, Explanation.singleLetterLexicon word m⟩
      | none => none
  else none

/-! ## Negation handling -/

/-- The `negationPrefixes` table (prefix, fullPrefix pairs, in source order). -/
def negationPrefixes : List (Str × Str) :=
  [(['i', 'm'], ['i', 'm']), (['i', 'n'], ['i', 'n']),
   (['i', 'r'], ['i', 'r']), (['i', 'l'], ['i', 'l']),
   (['u', 'n'], ['u', 'n']), (['n', 'o', 'n'], ['n', 'o', 'n']),
   (['d', 'i', 's'], ['d', 'i', 's']), (['a'], ['a']),
   (['a', 'n', 't', 'i'], ['a', 'n', 't', 'i'])]

/-- The standalone prefix list used by `hasNegationPrefix` (same contents). -/
def negationPrefixStrings : List Str :=
  [['i', 'm'], ['i', 'n'], ['i', 'r'], ['i', 'l'], ['u', 'n'],
   ['n', 'o', 'n'], ['d', 'i', 's'], ['a'], ['a', 'n', 't', 'i']]

/-- The Enochian negation marker `G-` (`enochianNegationPrefix + '-'`). -/
def gDash : Str := ['G', '-']

/-- One iteration step of the `handleNegationPrefixes` loop. -/
def handleNegationPrefixesAux (T : Translator) (word : Str) :
    List (Str × Str) → Option (Str × Explanation)
  | [] => none
  | (pfx, fullPfx) :: rest =>
    if startsWithS (toLowerS word) (toLowerS pfx) then
      let baseWord := word.drop fullPfx.length
      if 3 ≤ baseWord.length then
        match jsGet T.meaningToWordMap baseWord with
        | some rootWordMatch =>
          some (gDash ++ rootWordMatch,
            Explanation.negationDirect fullPfx word baseWord rootWordMatch
              (gDash ++ rootWordMatch))
        | none =>
          let stemmedRoot := stemWord baseWord
          match jsGet T.stemMap stemmedRoot with
          | some (m :: _) =>
            some (gDash ++ m,
              Explanation.negationStem fullPfx word baseWord stemmedRoot
                (gDash ++ m))
          | _ => handleNegationPrefixesAux T word rest
      else handleNegationPrefixesAux T word rest
    else handleNegationPrefixesAux T word rest

/-- `handleNegationPrefixes`: try each prefix in source order; on a prefix
of `word` whose remainder (≥ 3 chars) has a direct or stemmed lexicon
match, produce the `G-` compound. -/
def handleNegationPrefixes (T : Translator) (word : Str) :
    Option (Str × Explanation) :=
  handleNegationPrefixesAux T word negationPrefixes

/-- `hasNegationPrefix word possibleRoot`: `word` is exactly a negation
prefix followed by `possibleRoot` (and differs from it). -/
def hasNegationPrefix (word possibleRoot : Str) : Bool :=
  if word = possibleRoot then false
  else negationPrefixStrings.any
    (fun pfx => startsWithS word pfx && word.drop pfx.length = possibleRoot)

/-! ## Fuzzy matching -/

/-- Accumulator of the substring-containment scan (`bestMatch`,
`bestMatchScore`, `matchExplanation`; the winning meaning is carried inside
the structural explanation). -/
structure FuzzyAcc where
  best : Option (Str × Explanation)
  score : Score
  deriving DecidableEq, Repr

/-- One candidate of the substring scan: the score `meaning`/`word` would
get, `none` when the pair is not considered (no containment either way, or
the negation guard excludes it). -/
def fuzzyCandidateScore (word meaning : Str) : Option Score :=
  if containsSub meaning word || containsSub word meaning then
    if containsSub word meaning && hasNegationPrefix word meaning then none
    else if containsSub meaning word then
      some (mkScore word.length meaning.length)
    else some (mkScore meaning.length word.length)
  else none

/-- The explanation attached when `(meaning, m)` wins the substring scan. -/
def fuzzyCandidateExpl (word meaning m : Str) : Explanation :=
  if containsSub meaning word then Explanation.wordInMeaning word meaning m
  else Explanation.meaningInWord meaning word m

/-- One step of the `for (const [meaning, enochianWord] of ...)` loop. -/
def fuzzyScanStep (word : Str) (acc : FuzzyAcc) (e : Str × Str) : FuzzyAcc :=
  match fuzzyCandidateScore word e.1 with
  | some score =>
    if scoreLT acc.score score then
      ⟨some (e.2, fuzzyCandidateExpl word e.1 e.2), score⟩
    else acc
  | none => acc

/-- The substring-containment half of `findFuzzyMatch`: best score wins,
accepted only above 0.5. -/
def fuzzySubstringScan (T : Translator) (word : Str) :
    Option (Str × Explanation) :=
  let final := T.meaningToWordMap.foldl (fuzzyScanStep word) ⟨none, ⟨0, 1⟩⟩
  match final.best with
  | some be =>
    if be.1 ≠ [] && scoreLT ⟨1, 2⟩ final.score then some be else none
  | none => none

/-- `findFuzzyMatch`: negation prefixes first, then the stem map, then the
substring-containment scan. -/
def findFuzzyMatch (T : Translator) (word : Str) :
    Option (Str × Explanation) :=
  match handleNegationPrefixes T word with
  | some r => some r
  | none =>
    let stemmed := stemWord word
    match jsGet T.stemMap stemmed with
    | some (m :: _) => some (m, Explanation.stemMatch word stemmed m)
    | _ => fuzzySubstringScan T word

/-! ## Root construction -/

/-- Stable insertion into a `le`-sorted list (after existing `le`-smaller
or equal elements), used to model the stable `Array.prototype.sort`. -/
def insertLE {α : Type} (le : α → α → Bool) (x : α) : List α → List α
  | [] => [x]
  | y :: rest => if le y x then y :: insertLE le x rest else x :: y :: rest

/-- Stable sort (insertion sort), modelling `Array.prototype.sort` with a
consistent comparator `cmp` via `le a b := cmp a b ≤ 0`. -/
def stableSortLE {α : Type} (le : α → α → Bool) (l : List α) : List α :=
  l.foldl (fun acc x => insertLE le x acc) []

/-- The filter of `constructWordFromRoots`: the meaning equals the word, or
contains it as an inner word, or ends with it as a last word. -/
def cwfrFilter (word meaning : Str) : Bool :=
  toLowerS meaning = toLowerS word ||
  containsSub (toLowerS meaning) ([' '] ++ toLowerS word ++ [' ']) ||
  endsWithS (toLowerS meaning) ([' '] ++ toLowerS word)

/-- The sort comparator of `constructWordFromRoots` as a boolean `≤`:
exact matches first, then shorter meanings. -/
def cwfrLE (word : Str) (a b : Str × Str) : Bool :=
  if toLowerS a.1 = toLowerS word then true
  else if toLowerS b.1 = toLowerS word then false
  else a.1.length ≤ b.1.length

/-- `word.charAt(0).toUpperCase() + word.slice(1).toLowerCase()`. -/
def capitalizeS : Str → Str
  | [] => []
  | c :: rest => upperChar c :: toLowerS rest

structure Constructed where
  word : Str
  explanation : Explanation
  originalRoots : Option (List EnochianRootT)
  deriving DecidableEq, Repr

/-- `constructWordFromRoots` (latest revision): second-chance lexicon
check, then verbatim preservation (capitalised) with per-letter root
metadata; `none` only for words longer than 3 characters none of whose
letters has a root entry. -/
def constructWordFromRoots (T : Translator) (word : Str) : Option Constructed :=
  let singleWordMatches :=
    stableSortLE (cwfrLE word) (T.meaningToWordMap.filter (fun e => cwfrFilter word e.1))
  match singleWordMatches with
  | (meaning, enochianWord) :: _ =>
    some ⟨enochianWord, Explanation.lexiconAppears word meaning enochianWord, none⟩
  | [] =>
    if word.length ≤ 3 then
      let letters := toLowerS word
      let usedRoots := letters.filterMap (fun l => findRootForLetter T [l])
      some ⟨capitalizeS word,
        Explanation.preservedDirect word (capitalizeS word), some usedRoots⟩
    else
      let significantRoots :=
        ((toLowerS word).filter isAsciiAlpha).filterMap
          (fun letter => findRootForLetter T [letter])
      if significantRoots ≠ [] then
        some ⟨capitalizeS word,
          Explanation.preservedWithRoots significantRoots, some significantRoots⟩
      else none

/-! ## Root analysis and rendering -/

/-- The non-recursive part of `analyzeRoots`: whole root names map to
themselves, ordinary words letter by letter. -/
def analyzeRootsBase (T : Translator) (word : Str) : List RootAnalysisEntry :=
  match T.rootData.find? (fun root => root.enochian_name = word) with
  | some root => [⟨word, some root⟩]
  | none =>
    ((toLowerS word).filter isAsciiAlpha).map
      (fun letter => ⟨[letter], findRootForLetter T [letter]⟩)

/-- `analyzeRoots`: `G-` compounds expand recursively.  The recursion is
fuelled with `word.length + 1`; each `G-` step consumes two characters and
one unit of fuel, so the zero-fuel case is unreachable from the wrapper. -/
def analyzeRootsFuel (T : Translator) : Nat → Str → List RootAnalysisEntry
  | 0, word => analyzeRootsBase T word
  | fuel + 1, word =>
    if startsWithS word gDash then
      ⟨['g'], findRootForLetter T ['g']⟩ :: analyzeRootsFuel T fuel (word.drop 2)
    else analyzeRootsBase T word

def analyzeRoots (T : Translator) (word : Str) : List RootAnalysisEntry :=
  analyzeRootsFuel T (word.length + 1) word

/-- `convertToPhonetic`: bracketed words and whole root names unchanged,
`G-` compounds rendered as `Ged-` + recursion, otherwise letter names
joined with `-`.  Fuelled with `word.length + 1`, making the zero-fuel
case unreachable from the wrapper. -/
def convertToPhoneticFuel (T : Translator) : Nat → Str → Str
  | 0, word => word
  | fuel + 1, word =>
    if startsWithS word ['['] && endsWithS word [']'] then word
    else if (T.rootData.find? (fun root => root.enochian_name = word)).isSome
    then word
    else if startsWithS word gDash then
      ['G', 'e', 'd'] ++ ['-'] ++ convertToPhoneticFuel T fuel (word.drop 2)
    else
      List.intercalate ['-']
        ((toLowerS word).map (fun c =>
          match jsGet T.enochianLetterMap [c] with
          | some ns => if isAsciiAlpha c then ns.1 else [c]
          | none => [c]))

def convertToPhonetic (T : Translator) (word : Str) : Str :=
  convertToPhoneticFuel T (word.length + 1) word

/-- `convertToSymbols`: as `convertToPhonetic` but with glyphs, joined with
no separator; the `G-` branch reads `enochianLetterMap['g'].symbol`
unguarded, which throws when the table has no `g` - modelled as
`.error ()`. -/
def convertToSymbolsFuel (T : Translator) : Nat → Str → Except Unit Str
  | 0, word => Except.ok word
  | fuel + 1, word =>
    if startsWithS word ['['] && endsWithS word [']'] then Except.ok word
    else
      match T.rootData.find? (fun root => root.enochian_name = word) with
      | some root => Except.ok root.symbol
      | none =>
        if startsWithS word gDash then
          match jsGet T.enochianLetterMap ['g'] with
          | none => Except.error ()
          | some nsym =>
            (convertToSymbolsFuel T fuel (word.drop 2)).map
              (fun base => nsym.2 ++ ['-'] ++ base)
        else
          Except.ok (((toLowerS word).map (fun c =>
            match jsGet T.enochianLetterMap [c] with
            | some nsym => if isAsciiAlpha c then nsym.2 else [c]
            | none => [c])).flatten)

def convertToSymbols (T : Translator) (word : Str) : Except Unit Str :=
  convertToSymbolsFuel T (word.length + 1) word

/-! ## Whole-input phrase matching -/

structure PhraseMatchR where
  matched : Str
  enochianWord : Str
  explanation : Explanation
  deriving DecidableEq, Repr

/-- Accumulator of the fuzzy-phrase scan (`bestMatch`, `bestEnochianWord`,
`bestScore`). -/
structure PhraseAcc where
  best : Option (Str × Str)
  score : Score
  deriving DecidableEq, Repr

/-- The score a phrase-map key would get against the input, `none` when it
is not considered (single-word key, or no containment either way). -/
def phraseCandidateScore (text p : Str) : Option Score :=
  if containsSub p [' '] then
    if containsSub (toLowerS text) (toLowerS p) then
      some (mkScore p.length text.length)
    else if containsSub (toLowerS p) (toLowerS text) then
      some (mkScore text.length p.length)
    else none
  else none

/-- One step of the scoring loop in `findFuzzyPhraseMatch`. -/
def phraseScanStep (text : Str) (acc : PhraseAcc) (e : Str × Str) : PhraseAcc :=
  match phraseCandidateScore text e.1 with
  | some score => if scoreLT acc.score score then ⟨some e, score⟩ else acc
  | none => acc

/-- `findFuzzyPhraseMatch`: exact (case-insensitive) scan first, then the
best-scoring multi-word containment candidate, accepted above 0.7. -/
def findFuzzyPhraseMatch (T : Translator) (text : Str) : Option PhraseMatchR :=
  match T.phraseMap.find? (fun e => toLowerS e.1 = toLowerS text) with
  | some e => some ⟨e.1, e.2, Explanation.completePhrase text e.2⟩
  | none =>
    let acc := T.phraseMap.foldl (phraseScanStep text) ⟨none, ⟨0, 1⟩⟩
    match acc.best with
    | some e =>
      if e.1 ≠ [] && e.2 ≠ [] && scoreLT ⟨7, 10⟩ acc.score then
        some ⟨e.1, e.2, Explanation.phraseSimilar text e.1 e.2⟩
      else none
    | none => none

/-- `createPhraseMatchResult`: the 1-direct-match, 1-token result for a
whole-input phrase match. -/
def createPhraseMatchResult (T : Translator) (originalText enochianWord : Str)
    (explanation : Explanation) : Except Unit TranslationResultT :=
  let wordAnalysis := jsSet [] enochianWord (analyzeRoots T enochianWord)
  let constructionDetails :=
    jsSet [] originalText
      ⟨originalText, enochianWord, Method.direct, explanation, none⟩
  let phraseMatches := jsSet [] originalText enochianWord
  let phoneticText := convertToPhonetic T enochianWord
  match convertToSymbols T enochianWord with
  | Except.error e => Except.error e
  | Except.ok symbolText =>
    Except.ok ⟨enochianWord, phoneticText, symbolText, ⟨1, 0, 0, 0, 1⟩,
      wordAnalysis, constructionDetails, phraseMatches⟩

/-- `checkForPhraseMatch`: single letters are skipped (they use letter
roots); then exact `phraseMap` lookup, then fuzzy phrase matching. -/
def checkForPhraseMatch (T : Translator) (text : Str) :
    Except Unit (Option TranslationResultT) :=
  if singleAlpha text then Except.ok none
  else
    match jsGet T.phraseMap (toLowerS text) with
    | some w =>
      (createPhraseMatchResult T text w (Explanation.completePhrase text w)).map
        some
    | none =>
      match findFuzzyPhraseMatch T text with
      | some pm =>
        (createPhraseMatchResult T text pm.enochianWord pm.explanation).map some
      | none => Except.ok none

/-! ## Word translation -/

abbrev WAMap := List (Str × List RootAnalysisEntry)
abbrev CDMap := List (Str × Detail)

/-- The `/^[.,;:!?'"()-]+$/` test of `translateWord`. -/
def punctOnly (w : Str) : Bool := w ≠ [] && w.all isPunctChar

/-- Step 3 of the cascade (plural handling), as one lookup. -/
def pluralStep (T : Translator) (opts : TranslationOptions) (word : Str) :
    Option Str :=
  if opts.pluralHandling && endsWithS word ['s'] && !endsWithS word ['s', 's']
  then jsGet T.meaningToWordMap (word.take (word.length - 1))
  else none

/-- Step 4 of the cascade (fuzzy matching), gated by its option. -/
def fuzzyStep (T : Translator) (opts : TranslationOptions) (word : Str) :
    Option (Str × Explanation) :=
  if opts.fuzzyMatching then findFuzzyMatch T word else none

/-- Step 5 of the cascade (root construction), gated by its option. -/
def constructionStep (T : Translator) (opts : TranslationOptions) (word : Str) :
    Option Constructed :=
  if opts.rootConstruction then constructWordFromRoots T word else none

/-- The matching cascade of `translateWord`, applied to the already
stripped and lowercased core `word` (the surrounding punctuation is
re-attached to the result). -/
def translateWordCore (T : Translator) (opts : TranslationOptions)
    (originalWord leadingPunct trailingPunct word : Str) (st : Stats)
    (wa : WAMap) (cd : CDMap) : Str × Stats × WAMap × CDMap :=
  match handleSingleLetterWord T word with
    | some slm =>
      (leadingPunct ++ slm.result ++ trailingPunct,
        { st with direct := st.direct + 1 },
        jsSet wa slm.result (analyzeRoots T slm.result),
        jsSet cd originalWord ⟨word, slm.result, slm.method, slm.explanation, none⟩)
    | none =>
      match jsGet T.meaningToWordMap word with
      | some m =>
        (leadingPunct ++ m ++ trailingPunct,
          { st with direct := st.direct + 1 },
          jsSet wa m (analyzeRoots T m),
          jsSet cd originalWord
            ⟨word, m, Method.direct, Explanation.directMatch word m, none⟩)
      | none =>
        match pluralStep T opts word with
        | some m =>
          (leadingPunct ++ m ++ trailingPunct,
            { st with direct := st.direct + 1 },
            jsSet wa m (analyzeRoots T m),
            jsSet cd originalWord
              ⟨word, m, Method.direct,
                Explanation.pluralMatch word (word.take (word.length - 1)) m,
                none⟩)
        | none =>
          match fuzzyStep T opts word with
          | some fm =>
            (leadingPunct ++ fm.1 ++ trailingPunct,
              { st with partialCt := st.partialCt + 1 },
              jsSet wa fm.1 (analyzeRoots T fm.1),
              jsSet cd originalWord ⟨word, fm.1, Method.partialM, fm.2, none⟩)
          | none =>
            match constructionStep T opts word with
            | some c =>
              (leadingPunct ++ c.word ++ trailingPunct,
                { st with constructed := st.constructed + 1 },
                jsSet wa c.word (analyzeRoots T c.word),
                jsSet cd originalWord
                  ⟨word, c.word, Method.constructed, c.explanation,
                    c.originalRoots⟩)
            | none =>
              (leadingPunct ++ ('[' :: word ++ [']']) ++ trailingPunct,
                { st with missing := st.missing + 1 },
                wa,
                jsSet cd originalWord
                  ⟨word, '[' :: word ++ [']'], Method.missing,
                    Explanation.missingExpl, none⟩)

/-- `translateWord`: punctuation-only tokens pass through untouched;
otherwise strip surrounding punctuation, lowercase the core, and run the
cascade, each successful stage bumping exactly one counter and recording
one construction detail. -/
def translateWord (T : Translator) (opts : TranslationOptions)
    (originalWord : Str) (st : Stats) (wa : WAMap) (cd : CDMap) :
    Str × Stats × WAMap × CDMap :=
  if punctOnly originalWord then (originalWord, st, wa, cd)
  else
    translateWordCore T opts originalWord
      (originalWord.takeWhile isPunctChar)
      ((originalWord.reverse.takeWhile isPunctChar).reverse)
      (toLowerS ((originalWord.drop (originalWord.takeWhile isPunctChar).length).take
        (originalWord.length - (originalWord.takeWhile isPunctChar).length -
          ((originalWord.reverse.takeWhile isPunctChar).reverse).length)))
      st wa cd

/-! ## Multi-word phrase scan -/

/-- The `__PHRASE_MATCH_` sentinel prefix. -/
def phraseMarkerPfx : Str :=
  ['_', '_', 'P', 'H', 'R', 'A', 'S', 'E', '_', 'M', 'A', 'T', 'C', 'H', '_']

def natDigits (n : Nat) : Str := Nat.toDigits 10 n

/-- A `__PHRASE_MATCH_i_j_WORD__` marker. -/
def mkMarker (i j : Nat) (w : Str) : Str :=
  phraseMarkerPfx ++ natDigits i ++ ['_'] ++ natDigits j ++ ['_'] ++ w ++
    ['_', '_']

def isUpperAZ (c : Char) : Bool := 'A' ≤ c && c ≤ 'Z'

/-- Match of `/__PHRASE_MATCH_\d+_\d+_([A-Z]+)__/` anchored at the start of
`s` (the pattern is deterministic: every quantified class is followed by a
character outside it, so greedy matching needs no backtracking). -/
def parseMarkerAt (s : Str) : Option Str :=
  if startsWithS s phraseMarkerPfx then
    let r1 := s.drop phraseMarkerPfx.length
    let d1 := r1.takeWhile isDigitChar
    if d1 = [] then none
    else
      match r1.drop d1.length with
      | '_' :: r2 =>
        let d2 := r2.takeWhile isDigitChar
        if d2 = [] then none
        else
          match r2.drop d2.length with
          | '_' :: r3 =>
            let caps := r3.takeWhile isUpperAZ
            if caps = [] then none
            else if startsWithS (r3.drop caps.length) ['_', '_'] then some caps
            else none
          | _ => none
      | _ => none
  else none

/-- Unanchored regex search: leftmost match of the marker pattern. -/
def searchMarker : Str → Option Str
  | [] => none
  | c :: rest =>
    match parseMarkerAt (c :: rest) with
    | some cap => some cap
    | none => searchMarker rest

/-- State threaded through `findMultiWordPhrases` (the mutated token array
plus the phrase/detail/analysis records and stats). -/
structure ScanState where
  words : List Str
  pm : List (Str × Str)
  cd : CDMap
  wa : WAMap
  stats : Stats
  deriving DecidableEq, Repr

/-- In-place overwrite of `words[k] = marker` for `k ∈ [i, j)`. -/
def spliceMarker (words : List Str) (i j : Nat) (marker : Str) : List Str :=
  words.take i ++ List.replicate (j - i) marker ++ words.drop j

theorem spliceMarker_length {words : List Str} {i j : Nat} {m : Str}
    (hi : i ≤ j) (hj : j ≤ words.length) :
    (spliceMarker words i j m).length = words.length := by
  simp only [spliceMarker, List.length_append, List.length_take,
    List.length_replicate, List.length_drop]
  omega

/-- The inner `for (let j = min(len, i+4); j > i+1; j--)` loop: first
window (largest `j` first) that yields a fuzzy phrase match.  Structural
recursion on `j` (a window end `j = 0` satisfies `j ≤ i + 1` and yields
`none` exactly as the guard does). -/
def fmwpTryWindows (T : Translator) (words : List Str) (i : Nat) :
    Nat → Option (Nat × Str × PhraseMatchR)
  | 0 => none
  | j + 1 =>
    if j + 1 ≤ i + 1 then none
    else if ((words.drop i).take (j + 1 - i)).any
        (fun w => startsWithS w phraseMarkerPfx) then
      fmwpTryWindows T words i j
    else if ((words.drop i).take (j + 1 - i)).any (fun w => trimS w = []) then
      fmwpTryWindows T words i j
    else if trimS (List.intercalate [' '] ((words.drop i).take (j + 1 - i))) = []
    then fmwpTryWindows T words i j
    else
      match findFuzzyPhraseMatch T
          (trimS (List.intercalate [' '] ((words.drop i).take (j + 1 - i)))) with
      | some m =>
        some (j + 1,
          trimS (List.intercalate [' '] ((words.drop i).take (j + 1 - i))), m)
      | none => fmwpTryWindows T words i j

theorem fmwpTryWindows_some_bounds {T : Translator} {words : List Str}
    {i : Nat} : ∀ {j0 j : Nat} {p : Str} {m : PhraseMatchR},
    fmwpTryWindows T words i j0 = some (j, p, m) →
    i + 1 < j ∧ j ≤ j0 := by
  intro j0
  induction j0 with
  | zero =>
    intro j p m h
    cases h
  | succ j0 ih =>
    intro j p m h
    rw [fmwpTryWindows] at h
    split at h
    · cases h
    · split at h
      · have hb := ih h
        omega
      · split at h
        · have hb := ih h
          omega
        · split at h
          · have hb := ih h
            omega
          · split at h
            · cases h
              omega
            · have hb := ih h
              omega

/-- The outer loop of `findMultiWordPhrases` (`i = j - 1; break` plus the
`i++` of the `for` makes the next index `j`).  Fuelled: the loop index
strictly increases at every step and the loop stops at `words.length`
(which splicing preserves), so a fuel of `words.length` is never exhausted
before the loop ends by itself. -/
def fmwpOuter (T : Translator) : Nat → ScanState → Nat → ScanState
  | 0, s, _ => s
  | fuel + 1, s, i =>
    if h : i < s.words.length then
      if trimS (s.words.get ⟨i, h⟩) = [] ||
          startsWithS (s.words.get ⟨i, h⟩) phraseMarkerPfx then
        fmwpOuter T fuel s (i + 1)
      else
        match fmwpTryWindows T s.words i (min s.words.length (i + 4)) with
        | none => fmwpOuter T fuel s (i + 1)
        | some (j, phrase, m) =>
          fmwpOuter T fuel
            ⟨spliceMarker s.words i j (mkMarker i j m.enochianWord),
              jsSet s.pm phrase m.enochianWord,
              jsSet s.cd phrase
                ⟨phrase, m.enochianWord, Method.direct, m.explanation, none⟩,
              jsSet s.wa m.enochianWord (analyzeRoots T m.enochianWord),
              { s.stats with direct := s.stats.direct + 1 }⟩
            j
    else s

/-- `findMultiWordPhrases`: no-op when every token is blank, else the
greedy left-to-right windowed scan. -/
def findMultiWordPhrases (T : Translator) (s : ScanState) : ScanState :=
  if (s.words.filter (fun w => trimS w ≠ [])).length = 0 then s
  else fmwpOuter T s.words.length s 0

/-! ## Token resolution and assembly -/

structure ResolveState where
  out : List Str
  processedMarkers : List Str
  stats : Stats
  wa : WAMap
  cd : CDMap
  deriving DecidableEq, Repr

/-- `Set.prototype.add`. -/
def listInsertSet (l : List Str) (x : Str) : List Str :=
  if x ∈ l then l else l ++ [x]

/-- One step of the token-mapping pass of `processText` (blank tokens and
already-processed markers map to the empty string, markers resolve to
their embedded word, everything else goes through `translateWord`). -/
def resolveStep (T : Translator) (opts : TranslationOptions)
    (pm : List (Str × Str)) (s : ResolveState) (word : Str) : ResolveState :=
  if trimS word = [] then { s with out := s.out ++ [[]] }
  else if startsWithS word phraseMarkerPfx then
    if word ∈ s.processedMarkers then { s with out := s.out ++ [[]] }
    else
      match searchMarker word with
      | some cap =>
        { s with out := s.out ++ [cap],
                 processedMarkers := listInsertSet s.processedMarkers word }
      | none =>
        match pm with
        | [] => { s with out := s.out ++ [[]] }
        | (_, ew) :: _ =>
          { s with out := s.out ++ [ew],
                   processedMarkers := listInsertSet s.processedMarkers word }
  else
    let r := translateWord T opts word s.stats s.wa s.cd
    ⟨s.out ++ [r.1], s.processedMarkers, r.2.1, r.2.2.1, r.2.2.2⟩

/-! ## Alternate formats (phonetic / symbol texts) -/

/-- Boundary test of the `\b` assertion between two (optional) characters. -/
def wbAt (prev next : Option Char) : Bool :=
  (match prev with | some c => isWordChar c | none => false) !=
  (match next with | some c => isWordChar c | none => false)

/-- Global word-boundary replacement
`s.replace(new RegExp("\\b" + pat + "\\b", "g"), repl)` for a literal
pattern (patterns reaching this code in the verified theorems contain no
regex metacharacters). -/
def replaceWBAux (pat repl : Str) : Nat → Option Char → Str → Str
  | _, _, [] => []
  | 0, _, s => s
  | fuel + 1, prev, c :: rest =>
    if pat ≠ [] ∧ pat <+: (c :: rest) ∧ wbAt prev (some c) = true ∧
        wbAt pat.getLast? ((c :: rest).drop pat.length).head? = true then
      repl ++
        replaceWBAux pat repl fuel pat.getLast? ((c :: rest).drop pat.length)
    else c :: replaceWBAux pat repl fuel (some c) rest

def replaceWB (s pat repl : Str) : Str :=
  if pat = [] then s else replaceWBAux pat repl s.length none s

/-- One construction-detail entry folded into the `enochianToOriginal` /
`enochianToRoots` maps (untranslated bracketed results skipped). -/
def gafMapsStep (acc : List (Str × Str) × List (Str × List EnochianRootT))
    (e : Str × Detail) : List (Str × Str) × List (Str × List EnochianRootT) :=
  let d := e.2
  if !startsWithS d.result ['['] then
    (jsSet acc.1 d.result d.original,
      match d.originalRoots with
      | some rs => jsSet acc.2 d.result rs
      | none => acc.2)
  else acc

/-- The `enochianToOriginal` / `enochianToRoots` maps built from the
construction details. -/
def gafMaps (cd : CDMap) :
    List (Str × Str) × List (Str × List EnochianRootT) :=
  cd.foldl gafMapsStep ([], [])

/-- Descending length, the `(a, b) => b.length - a.length` comparator. -/
def lenDescLE (a b : Str) : Bool := b.length ≤ a.length

/-- `!originalWord` (undefined or empty string). -/
def jsFalsyStr : Option Str → Bool
  | none => true
  | some [] => true
  | some (_ :: _) => false

/-- One step of the replacement loop of `generateAlternateFormats`. -/
def gafStep (T : Translator) (e2o : List (Str × Str))
    (e2r : List (Str × List EnochianRootT)) (acc : Str × Str) (w : Str) :
    Except Unit (Str × Str) :=
  if startsWithS w ['['] then Except.ok acc
  else
    let originalWord := jsGet e2o w
    let directRoot : Option EnochianRootT :=
      match originalWord with
      | some o =>
        T.rootData.find? (fun root => toLowerS root.english_letter = toLowerS o)
      | none => none
    let isSpecialCase := directRoot.isSome && jsFalsyStr originalWord
    let originalRoots := jsGet e2r w
    let phonetic :=
      if isSpecialCase then acc.1
      else
        match originalRoots with
        | some (r :: rs) =>
          replaceWB acc.1 w
            (List.intercalate ['-'] (((r :: rs)).map (fun root : EnochianRootT => root.enochian_name)))
        | _ => replaceWB acc.1 w (convertToPhonetic T w)
    if isSpecialCase then
      match directRoot with
      | some dr => Except.ok (phonetic, replaceWB acc.2 w dr.symbol)
      | none => Except.ok (phonetic, acc.2)
    else
      match originalRoots with
      | some (r :: rs) =>
        Except.ok (phonetic,
          replaceWB acc.2 w ((((r :: rs)).map (fun root : EnochianRootT => root.symbol)).flatten))
      | _ =>
        (convertToSymbols T w).map (fun sv => (phonetic, replaceWB acc.2 w sv))

/-- `generateAlternateFormats`: substitute every resolved target word
(longest first, word-boundary safe) by its phonetic / symbolic rendering. -/
def generateAlternateFormats (T : Translator) (translationText : Str)
    (cd : CDMap) (pm : List (Str × Str)) : Except Unit (Str × Str) :=
  let maps := gafMaps cd
  let e2o := pm.foldl (fun m e => jsSet m e.2 e.1) maps.1
  let enochianWords := stableSortLE lenDescLE (e2o.map (fun e => e.1))
  enochianWords.foldlM (gafStep T e2o maps.2) (translationText, translationText)

/-! ## Orchestrator -/

def createEmptyResult : TranslationResultT :=
  ⟨[], [], [], ⟨0, 0, 0, 0, 0⟩, [], [], []⟩

/-- The tokenisation + multi-word phrase scan half of `processText`. -/
def processTextScan (T : Translator) (text : Str) (opts : TranslationOptions) :
    ScanState :=
  let words := splitWSTokens (normalizeWS text)
  if opts.checkPhrases then
    findMultiWordPhrases T ⟨words, [], [], [], ⟨0, 0, 0, 0, words.length⟩⟩
  else ⟨words, [], [], [], ⟨0, 0, 0, 0, words.length⟩⟩

/-- The token-resolution half of `processText` (the word analysis and
construction details continue from whatever the multi-word phrase scan
already recorded, as the source mutates the same objects). -/
def processTextResolve (T : Translator) (text : Str)
    (opts : TranslationOptions) : ResolveState :=
  let s1 := processTextScan T text opts
  s1.words.foldl (resolveStep T opts s1.pm) ⟨[], [], s1.stats, s1.wa, s1.cd⟩

/-- `processText`: tokenize, scan for multi-word phrases, resolve every
token, then assemble the three surface texts. -/
def processText (T : Translator) (text : Str) (opts : TranslationOptions) :
    Except Unit TranslationResultT :=
  let s1 := processTextScan T text opts
  let r := processTextResolve T text opts
  let translationText := List.intercalate [' '] (r.out.filter (fun w => w ≠ []))
  match generateAlternateFormats T translationText r.cd s1.pm with
  | Except.error e => Except.error e
  | Except.ok phsy =>
    Except.ok ⟨translationText, phsy.1, phsy.2, r.stats, r.wa, r.cd, s1.pm⟩

/-- `translate` (callers merge the option defaults; every verified theorem
about default behaviour passes `defaultOptions`). -/
def translate (T : Translator) (text : Str) (opts : TranslationOptions) :
    Except Unit TranslationResultT :=
  let cleanedText := normalizeWS text
  if cleanedText = [] then Except.ok createEmptyResult
  else if opts.checkPhrases then
    match checkForPhraseMatch T cleanedText with
    | Except.error e => Except.error e
    | Except.ok (some r) => Except.ok r
    | Except.ok none => processText T cleanedText opts
  else processText T cleanedText opts

/-! ## Helper lemmas: whitespace, tokenisation -/

theorem splitWSAux_dropWhileWS (s : Str) :
    splitWSAux [] (s.dropWhile isWSChar) = splitWSAux [] s := by
  induction s with
  | nil => rfl
  | cons c rest ih =>
    by_cases hc : isWSChar c
    · rw [List.dropWhile_cons_of_pos (by simpa using hc)]
      rw [ih]
      simp [splitWSAux, hc]
    · rw [List.dropWhile_cons_of_neg (by simpa using hc)]

theorem dropTrailingWS_cons (c : Char) (rest : Str) :
    dropTrailingWS (c :: rest) =
      if dropTrailingWS rest = [] then (if isWSChar c then [] else [c])
      else c :: dropTrailingWS rest := by
  simp only [dropTrailingWS]
  split
  · rename_i heq
    rw [if_pos heq]
  · rename_i heq
    rw [if_neg heq]

theorem splitWSAux_cons (cur : Str) (c : Char) (rest : Str) :
    splitWSAux cur (c :: rest) =
      if isWSChar c then
        (if cur = [] then splitWSAux [] rest
         else cur.reverse :: splitWSAux [] rest)
      else splitWSAux (c :: cur) rest := rfl

theorem splitWSAux_nil (cur : Str) :
    splitWSAux cur [] = if cur = [] then [] else [cur.reverse] := rfl

theorem dropTrailingWS_nil_allWS :
    ∀ {s : Str}, dropTrailingWS s = [] → ∀ x ∈ s, isWSChar x = true := by
  intro s
  induction s with
  | nil =>
    intro _ x hx
    cases hx
  | cons c rest ih =>
    intro h x hx
    rw [dropTrailingWS_cons] at h
    by_cases hr : dropTrailingWS rest = []
    · rw [if_pos hr] at h
      by_cases hc : isWSChar c
      · rcases List.mem_cons.mp hx with hx | hx
        · subst hx
          exact hc
        · exact ih hr x hx
      · rw [if_neg (by simpa using hc)] at h
        cases h
    · rw [if_neg hr] at h
      cases h

theorem splitWSAux_allWS {s : Str} (h : ∀ c ∈ s, isWSChar c = true) :
    ∀ cur : Str, splitWSAux cur s = if cur = [] then [] else [cur.reverse] := by
  induction s with
  | nil =>
    intro cur
    rfl
  | cons c rest ih =>
    intro cur
    have hc : isWSChar c = true := h c (List.mem_cons_self c rest)
    have hrest : ∀ x ∈ rest, isWSChar x = true :=
      fun x hx => h x (List.mem_cons_of_mem c hx)
    rw [splitWSAux_cons, if_pos hc]
    by_cases hcur : cur = []
    · rw [if_pos hcur, ih hrest [], if_pos rfl, if_pos hcur]
    · rw [if_neg hcur, ih hrest [], if_pos rfl, if_neg hcur]

theorem splitWSAux_dropTrailing (s : Str) :
    ∀ cur : Str, splitWSAux cur (dropTrailingWS s) = splitWSAux cur s := by
  induction s with
  | nil =>
    intro cur
    rfl
  | cons c rest ih =>
    intro cur
    rw [dropTrailingWS_cons]
    by_cases hr : dropTrailingWS rest = []
    · rw [if_pos hr]
      have hall : ∀ x ∈ rest, isWSChar x = true := dropTrailingWS_nil_allWS hr
      by_cases hc : isWSChar c
      · rw [if_pos hc, splitWSAux_cons, if_pos hc]
        by_cases hcur : cur = []
        · rw [if_pos hcur, splitWSAux_allWS hall [], if_pos rfl, splitWSAux_nil,
            if_pos hcur]
        · rw [if_neg hcur, splitWSAux_allWS hall [], if_pos rfl, splitWSAux_nil,
            if_neg hcur]
      · rw [if_neg (by simpa using hc), splitWSAux_cons,
          if_neg (by simpa using hc), splitWSAux_cons,
          if_neg (by simpa using hc), splitWSAux_nil,
          if_neg (by simp), splitWSAux_allWS hall (c :: cur),
          if_neg (by simp)]
    · rw [if_neg hr, splitWSAux_cons, splitWSAux_cons]
      by_cases hc : isWSChar c
      · rw [if_pos hc, if_pos hc]
        by_cases hcur : cur = []
        · rw [if_pos hcur, if_pos hcur, ih []]
        · rw [if_neg hcur, if_neg hcur, ih []]
      · rw [if_neg (by simpa using hc), if_neg (by simpa using hc), ih (c :: cur)]

theorem collapseWSAux_cons (p : Bool) (c : Char) (rest : Str) :
    collapseWSAux p (c :: rest) =
      if isWSChar c then
        (if p then collapseWSAux true rest else ' ' :: collapseWSAux true rest)
      else c :: collapseWSAux false rest := rfl

theorem splitWSAux_collapse (s : Str) :
    ∀ (p : Bool) (cur : Str), (p = true → cur = []) →
      splitWSAux cur (collapseWSAux p s) = splitWSAux cur s := by
  induction s with
  | nil =>
    intro p cur _
    rfl
  | cons c rest ih =>
    intro p cur hpc
    rw [collapseWSAux_cons]
    by_cases hc : isWSChar c
    · rw [if_pos hc]
      cases p with
      | true =>
        have hcur := hpc rfl
        subst hcur
        rw [if_pos rfl, ih true [] (fun _ => rfl), splitWSAux_cons, if_pos hc,
          if_pos rfl]
      | false =>
        rw [if_neg (by simp)]
        rw [splitWSAux_cons cur ' ' (collapseWSAux true rest),
          splitWSAux_cons cur c rest, if_pos hc,
          if_pos (show isWSChar ' ' = true by rfl)]
        by_cases hcur : cur = []
        · rw [if_pos hcur, if_pos hcur, ih true [] (fun _ => rfl)]
        · rw [if_neg hcur, if_neg hcur, ih true [] (fun _ => rfl)]
    · rw [if_neg (by simpa using hc),
        splitWSAux_cons cur c (collapseWSAux false rest),
        splitWSAux_cons cur c rest, if_neg (by simpa using hc),
        if_neg (by simpa using hc)]
      exact ih false (c :: cur) (by simp)

/-- Tokenisation is invariant under the input cleaning. -/
theorem splitWSTokens_normalizeWS (s : Str) :
    splitWSTokens (normalizeWS s) = splitWSTokens s := by
  unfold splitWSTokens normalizeWS collapseWS trimS
  rw [splitWSAux_collapse _ false [] (by simp)]
  rw [splitWSAux_dropTrailing]
  exact splitWSAux_dropWhileWS s

/-- Whitespace-only inputs normalise to the empty string. -/
theorem normalizeWS_allWS {s : Str} (h : ∀ c ∈ s, isWSChar c = true) :
    normalizeWS s = [] := by
  unfold normalizeWS trimS
  have h1 : s.dropWhile isWSChar = [] := by
    rw [List.dropWhile_eq_nil_iff]
    intro x hx
    simpa using h x hx
  rw [h1]
  rfl

/-- Tokens produced by `splitWSTokens` are nonempty and whitespace-free. -/
theorem splitWSTokens_props_aux :
    ∀ (s cur : Str), (∀ c ∈ cur, isWSChar c = false) →
      ∀ t ∈ splitWSAux cur s, t ≠ [] ∧ ∀ c ∈ t, isWSChar c = false := by
  intro s
  induction s with
  | nil =>
    intro cur hcur t ht
    rw [splitWSAux_nil] at ht
    by_cases hc : cur = []
    · rw [if_pos hc] at ht
      cases ht
    · rw [if_neg hc] at ht
      have ht' := List.mem_singleton.mp ht
      subst ht'
      exact ⟨by simpa using hc, fun x hx => hcur x (List.mem_reverse.mp hx)⟩
  | cons c rest ih =>
    intro cur hcur t ht
    rw [splitWSAux_cons] at ht
    by_cases hc : isWSChar c
    · rw [if_pos hc] at ht
      by_cases hcure : cur = []
      · rw [if_pos hcure] at ht
        exact ih [] (by intro x hx; cases hx) t ht
      · rw [if_neg hcure] at ht
        rcases List.mem_cons.mp ht with ht' | ht'
        · subst ht'
          exact ⟨by simpa using hcure, fun x hx => hcur x (List.mem_reverse.mp hx)⟩
        · exact ih [] (by intro x hx; cases hx) t ht'
    · rw [if_neg (by simpa using hc)] at ht
      refine ih (c :: cur) ?_ t ht
      intro x hx
      rcases List.mem_cons.mp hx with hx' | hx'
      · subst hx'
        simpa using hc
      · exact hcur x hx'

theorem splitWSTokens_props (s : Str) :
    ∀ t ∈ splitWSTokens s, t ≠ [] ∧ ∀ c ∈ t, isWSChar c = false :=
  fun t ht => splitWSTokens_props_aux s [] (by intro x hx; cases hx) t ht

/-! ## Helper lemmas: characters -/

theorem lower_not_punct {c : Char} (h1 : 'a' ≤ c) : isPunctChar c = false := by
  cases hx : isPunctChar c
  · rfl
  · exfalso
    simp only [isPunctChar, Bool.or_eq_true, decide_eq_true_eq] at hx
    rcases hx with ((((((((((h | h) | h) | h) | h) | h) | h) | h) | h) | h) | h) <;>
      (subst h; exact absurd h1 (by decide))

theorem lower_not_ws {c : Char} (h1 : 'a' ≤ c) : isWSChar c = false := by
  cases hx : isWSChar c
  · rfl
  · exfalso
    simp only [isWSChar, Bool.or_eq_true, decide_eq_true_eq] at hx
    rcases hx with ((((h | h) | h) | h) | h) | h <;>
      (subst h; exact absurd h1 (by decide))

theorem lowerChar_of_lower {c : Char} (h1 : 'a' ≤ c) : lowerChar c = c := by
  have hz : ¬(c ≤ 'Z') := not_le.mpr (lt_of_lt_of_le (by decide : 'Z' < 'a') h1)
  simp [lowerChar, hz]

theorem toLowerS_of_lower {w : Str} (h : ∀ c ∈ w, 'a' ≤ c) : toLowerS w = w := by
  induction w with
  | nil => rfl
  | cons c rest ih =>
    simp only [toLowerS, List.map_cons]
    rw [lowerChar_of_lower (h c (List.mem_cons_self c rest))]
    have := ih (fun x hx => h x (List.mem_cons_of_mem c hx))
    simp only [toLowerS] at this
    rw [this]

theorem takeWhile_punct_nil {w : Str} (h : ∀ c ∈ w, 'a' ≤ c) :
    w.takeWhile isPunctChar = [] := by
  cases w with
  | nil => rfl
  | cons c rest =>
    rw [List.takeWhile_cons_of_neg]
    simp [lower_not_punct (h c (List.mem_cons_self c rest))]

theorem punctOnly_false_of_lower {w : Str} (hw : w ≠ [])
    (h : ∀ c ∈ w, 'a' ≤ c) : punctOnly w = false := by
  cases w with
  | nil => exact absurd rfl hw
  | cons c rest =>
    have hc := lower_not_punct (h c (List.mem_cons_self c rest))
    simp [punctOnly, hc]

theorem startsWith_marker_false {w : Str} (h : ∀ c ∈ w, 'a' ≤ c) :
    startsWithS w phraseMarkerPfx = false := by
  cases w with
  | nil => rfl
  | cons c rest =>
    have hne : ¬(phraseMarkerPfx <+: (c :: rest)) := by
      intro hp
      rw [show phraseMarkerPfx = '_' :: phraseMarkerPfx.tail from rfl] at hp
      have hcc := (List.cons_prefix_cons.mp hp).1
      have := h c (List.mem_cons_self c rest)
      rw [← hcc] at this
      exact absurd this (by decide)
    simp [startsWithS, hne]

theorem trimS_of_lower {w : Str} (h : ∀ c ∈ w, 'a' ≤ c) : trimS w = w := by
  unfold trimS
  have h1 : w.dropWhile isWSChar = w := by
    cases w with
    | nil => rfl
    | cons c rest =>
      rw [List.dropWhile_cons_of_neg]
      simp [lower_not_ws (h c (List.mem_cons_self c rest))]
  rw [h1]
  induction w with
  | nil => rfl
  | cons c rest ih =>
    rw [dropTrailingWS_cons]
    have hrest := ih (fun x hx => h x (List.mem_cons_of_mem c hx))
      (by
        cases rest with
        | nil => rfl
        | cons d rs =>
          rw [List.dropWhile_cons_of_neg]
          simp [lower_not_ws (h d (by simp))])
    rw [hrest]
    by_cases hre : rest = []
    · subst hre
      simp [lower_not_ws (h c (List.mem_cons_self c []))]
    · rw [if_neg hre]

/-! ## Helper lemmas: stats bookkeeping -/

/-- The sum of the four per-method counters (specification-level quantity,
not part of the engine). -/
def statsSum (st : Stats) : Nat :=
  st.direct + st.partialCt + st.constructed + st.missing

theorem translateWord_punct (T : Translator) (opts : TranslationOptions)
    (w : Str) (st : Stats) (wa : WAMap) (cd : CDMap)
    (hp : punctOnly w = true) :
    translateWord T opts w st wa cd = (w, st, wa, cd) := by
  unfold translateWord
  simp [hp]

theorem translateWord_stats (T : Translator) (opts : TranslationOptions)
    (w : Str) (st : Stats) (wa : WAMap) (cd : CDMap)
    (hp : punctOnly w = false) :
    statsSum (translateWord T opts w st wa cd).2.1 = statsSum st + 1 ∧
    (translateWord T opts w st wa cd).2.1.total = st.total := by
  unfold translateWord translateWordCore
  simp only [hp, Bool.false_eq_true, if_false]
  repeat' split
  all_goals constructor
  all_goals dsimp only [statsSum]
  all_goals omega

theorem translateWord_total (T : Translator) (opts : TranslationOptions)
    (w : Str) (st : Stats) (wa : WAMap) (cd : CDMap) :
    (translateWord T opts w st wa cd).2.1.total = st.total := by
  by_cases hp : punctOnly w
  · rw [translateWord_punct T opts w st wa cd hp]
  · exact (translateWord_stats T opts w st wa cd (by simpa using hp)).2

theorem resolveStep_stats (T : Translator) (opts : TranslationOptions)
    (pm : List (Str × Str)) (s : ResolveState) (w : Str)
    (h1 : trimS w ≠ []) (h2 : startsWithS w phraseMarkerPfx = false)
    (h3 : punctOnly w = false) :
    statsSum (resolveStep T opts pm s w).stats = statsSum s.stats + 1 ∧
    (resolveStep T opts pm s w).stats.total = s.stats.total := by
  unfold resolveStep
  rw [if_neg h1]
  simp only [h2, Bool.false_eq_true, if_false]
  exact translateWord_stats T opts w s.stats s.wa s.cd h3

theorem resolveStep_total (T : Translator) (opts : TranslationOptions)
    (pm : List (Str × Str)) (s : ResolveState) (w : Str) :
    (resolveStep T opts pm s w).stats.total = s.stats.total := by
  unfold resolveStep
  split
  · rfl
  · split
    · split
      · rfl
      · split
        · rfl
        · split
          · rfl
          · rfl
    · exact translateWord_total T opts w s.stats s.wa s.cd

theorem resolveFold_stats (T : Translator) (opts : TranslationOptions)
    (pm : List (Str × Str)) :
    ∀ (tokens : List Str) (s : ResolveState),
      (∀ t ∈ tokens, trimS t ≠ [] ∧ startsWithS t phraseMarkerPfx = false ∧
        punctOnly t = false) →
      statsSum (tokens.foldl (resolveStep T opts pm) s).stats =
        statsSum s.stats + tokens.length ∧
      (tokens.foldl (resolveStep T opts pm) s).stats.total = s.stats.total := by
  intro tokens
  induction tokens with
  | nil =>
    intro s _
    simp
  | cons t rest ih =>
    intro s h
    have ht := h t (List.mem_cons_self t rest)
    have hstep := resolveStep_stats T opts pm s t ht.1 ht.2.1 ht.2.2
    have hrest := ih (resolveStep T opts pm s t)
      (fun x hx => h x (List.mem_cons_of_mem t hx))
    simp only [List.foldl_cons, List.length_cons]
    constructor
    · rw [hrest.1, hstep.1]
      omega
    · rw [hrest.2, hstep.2]

theorem resolveFold_total (T : Translator) (opts : TranslationOptions)
    (pm : List (Str × Str)) :
    ∀ (tokens : List Str) (s : ResolveState),
      (tokens.foldl (resolveStep T opts pm) s).stats.total = s.stats.total := by
  intro tokens
  induction tokens with
  | nil =>
    intro s
    rfl
  | cons t rest ih =>
    intro s
    simp only [List.foldl_cons]
    rw [ih (resolveStep T opts pm s t), resolveStep_total]

theorem fmwpOuter_invariant (T : Translator) :
    ∀ (fuel : Nat) (s : ScanState) (i : Nat),
      (fmwpOuter T fuel s i).stats.total = s.stats.total ∧
      (fmwpOuter T fuel s i).words.length = s.words.length := by
  intro fuel
  induction fuel with
  | zero =>
    intro s i
    exact ⟨rfl, rfl⟩
  | succ fuel ih =>
    intro s i
    rw [fmwpOuter]
    by_cases hi : i < s.words.length
    · rw [dif_pos hi]
      split
      · exact ih s (i + 1)
      · split
        · exact ih s (i + 1)
        · rename_i j phrase m hw
          have hb := fmwpTryWindows_some_bounds hw
          have hlen : (spliceMarker s.words i j
              (mkMarker i j m.enochianWord)).length = s.words.length :=
            spliceMarker_length (by omega) (by omega)
          have hrec := ih
            ⟨spliceMarker s.words i j (mkMarker i j m.enochianWord),
              jsSet s.pm phrase m.enochianWord,
              jsSet s.cd phrase
                ⟨phrase, m.enochianWord, Method.direct, m.explanation, none⟩,
              jsSet s.wa m.enochianWord (analyzeRoots T m.enochianWord),
              { s.stats with direct := s.stats.direct + 1 }⟩
            j
          refine ⟨?_, ?_⟩
          · rw [hrec.1]
          · rw [hrec.2]
            exact hlen
    · rw [dif_neg hi]
      exact ⟨rfl, rfl⟩

theorem findMultiWordPhrases_invariant (T : Translator) (s : ScanState) :
    (findMultiWordPhrases T s).stats.total = s.stats.total ∧
    (findMultiWordPhrases T s).words.length = s.words.length := by
  unfold findMultiWordPhrases
  split
  · exact ⟨rfl, rfl⟩
  · exact fmwpOuter_invariant T s.words.length s 0

theorem processText_ok_stats (T : Translator) (opts : TranslationOptions)
    (s : Str) (r : TranslationResultT)
    (h : processText T s opts = Except.ok r) :
    r.stats = (processTextResolve T s opts).stats := by
  unfold processText at h
  dsimp only at h
  split at h
  · exact Except.noConfusion h
  · cases h
    rfl

theorem processTextScan_total (T : Translator) (opts : TranslationOptions)
    (s : Str) :
    (processTextScan T s opts).stats.total =
      (splitWSTokens (normalizeWS s)).length := by
  unfold processTextScan
  by_cases hcp : opts.checkPhrases = true
  · simp only [hcp, if_true]
    rw [(findMultiWordPhrases_invariant T _).1]
  · have hb : opts.checkPhrases = false := by
      cases hcb : opts.checkPhrases
      · rfl
      · exact absurd hcb hcp
    simp only [hb, Bool.false_eq_true, if_false]

theorem processText_total (T : Translator) (opts : TranslationOptions)
    (s : Str) (r : TranslationResultT)
    (h : processText T s opts = Except.ok r) :
    r.stats.total = (splitWSTokens (normalizeWS s)).length := by
  rw [processText_ok_stats T opts s r h]
  unfold processTextResolve
  rw [resolveFold_total]
  exact processTextScan_total T opts s

theorem translate_eq_processText (T : Translator) (s : Str)
    (opts : TranslationOptions) (h1 : normalizeWS s ≠ [])
    (h2 : opts.checkPhrases = true)
    (h3 : checkForPhraseMatch T (normalizeWS s) = Except.ok none) :
    translate T s opts = processText T (normalizeWS s) opts := by
  unfold translate
  rw [if_neg h1]
  simp only [h2, if_true]
  rw [h3]

theorem trimS_of_noWS {w : Str} (h : ∀ c ∈ w, isWSChar c = false) :
    trimS w = w := by
  unfold trimS
  have h1 : w.dropWhile isWSChar = w := by
    cases w with
    | nil => rfl
    | cons c rest =>
      rw [List.dropWhile_cons_of_neg]
      simp [h c (List.mem_cons_self c rest)]
  rw [h1]
  induction w with
  | nil => rfl
  | cons c rest ih =>
    rw [dropTrailingWS_cons]
    have hrest := ih (fun x hx => h x (List.mem_cons_of_mem c hx))
      (by
        cases rest with
        | nil => rfl
        | cons d rs =>
          rw [List.dropWhile_cons_of_neg]
          simp [h d (by simp)])
    rw [hrest]
    by_cases hre : rest = []
    · subst hre
      simp [h c (List.mem_cons_self c [])]
    · rw [if_neg hre]

/-! ## Claim C8: the stemmer -/

/-- One-suffix stripping exactly as the specification sentence describes
it: the first applicable suffix of `s` (not after `ss`), `ing`, `ed`, `ly`
is removed, and only that one; when none applies the word is unchanged. -/
def stripOneSuffix (w : Str) : Str :=
  match
    (if endsWithS w ['s'] && !endsWithS w ['s', 's'] then some 1
     else if endsWithS w ['i', 'n', 'g'] then some 3
     else if endsWithS w ['e', 'd'] then some 2
     else if endsWithS w ['l', 'y'] then some 2
     else none : Option Nat) with
  | some n => w.take (w.length - n)
  | none => w

/-- The claim's description of the stemmer: lowercase and trim, keep short
words, else strip exactly one suffix in priority order. -/
def stemWordSpec (s : Str) : Str :=
  let w := trimS (toLowerS s)
  if w.length ≤ 3 then w else stripOneSuffix w

/-- Claim C8 (confirmed): `stemWord` lowercases and trims, returns words of
length ≤ 3 unchanged, and otherwise strips exactly one suffix, tried in the
priority order `s` (unless the word ends in `ss`), `ing`, `ed`, `ly`,
returning the word unchanged when none applies - the behaviour the
specification describes, captured by `stemWordSpec`. -/
theorem c8_stemmer_refines_spec : ∀ s : Str, stemWord s = stemWordSpec s := by
  intro s
  unfold stemWord stemWordSpec stripOneSuffix
  dsimp only
  by_cases h0 : (trimS (toLowerS s)).length ≤ 3
  · rw [if_pos h0, if_pos h0]
  · rw [if_neg h0, if_neg h0]
    by_cases h1 : (endsWithS (trimS (toLowerS s)) ['s'] &&
        !endsWithS (trimS (toLowerS s)) ['s', 's']) = true
    · rw [if_pos h1, if_pos h1]
    · rw [if_neg h1, if_neg h1]
      by_cases h2 : endsWithS (trimS (toLowerS s)) ['i', 'n', 'g'] = true
      · rw [if_pos h2, if_pos h2]
      · rw [if_neg h2, if_neg h2]
        by_cases h3 : endsWithS (trimS (toLowerS s)) ['e', 'd'] = true
        · rw [if_pos h3, if_pos h3]
        · rw [if_neg h3, if_neg h3]
          by_cases h4 : endsWithS (trimS (toLowerS s)) ['l', 'y'] = true
          · rw [if_pos h4, if_pos h4]
          · rw [if_neg h4, if_neg h4]

/-! ## Claim C9: empty and whitespace-only input -/

/-- Claim C9 (confirmed): on empty or whitespace-only input, `translate`
returns the empty result: empty translation, phonetic and symbol texts,
all five counters zero, and empty word-analysis, construction-detail and
phrase-match maps. -/
theorem c9_empty_input (T : Translator) (opts : TranslationOptions) (s : Str)
    (h : ∀ c ∈ s, isWSChar c = true) :
    translate T s opts = Except.ok createEmptyResult ∧
    createEmptyResult.translationText = [] ∧
    createEmptyResult.phoneticText = [] ∧
    createEmptyResult.symbolText = [] ∧
    createEmptyResult.stats = ⟨0, 0, 0, 0, 0⟩ ∧
    createEmptyResult.wordAnalysis = [] ∧
    createEmptyResult.constructionDetails = [] ∧
    createEmptyResult.phraseMatches = [] := by
  refine ⟨?_, rfl, rfl, rfl, rfl, rfl, rfl, rfl⟩
  unfold translate
  rw [normalizeWS_allWS h]
  rfl

theorem c9_empty_input_witness :
    translate (mkTranslator [] []) [' ', '\t', '\n'] defaultOptions =
      Except.ok createEmptyResult :=
  (c9_empty_input (mkTranslator [] []) defaultOptions [' ', '\t', '\n']
    (by decide)).1

/-! ## Claim C10: punctuation-only tokens -/

/-- Claim C10 (confirmed): a punctuation-only token passes through
`translateWord` verbatim and leaves the stats, the word analysis and the
construction details untouched; such tokens still count toward
`stats.total`, which always equals the token count of the normalized
input. -/
theorem c10_punct_frame (T : Translator) (opts : TranslationOptions)
    (w : Str) (st : Stats) (wa : WAMap) (cd : CDMap)
    (hw : w ≠ []) (hp : ∀ c ∈ w, isPunctChar c = true) :
    translateWord T opts w st wa cd = (w, st, wa, cd) ∧
    ∀ (s : Str) (r : TranslationResultT),
      processText T s opts = Except.ok r →
      r.stats.total = (splitWSTokens (normalizeWS s)).length := by
  constructor
  · apply translateWord_punct
    simp only [punctOnly, Bool.and_eq_true, ne_eq, decide_eq_true_eq,
      List.all_eq_true]
    exact ⟨hw, hp⟩
  · exact fun s r h => processText_total T opts s r h

theorem c10_punct_frame_witness :
    translateWord (mkTranslator [] []) defaultOptions ['-', '.']
      ⟨1, 2, 3, 4, 10⟩ [] [] = (['-', '.'], ⟨1, 2, 3, 4, 10⟩, [], []) :=
  (c10_punct_frame (mkTranslator [] []) defaultOptions ['-', '.']
    ⟨1, 2, 3, 4, 10⟩ [] [] (by decide) (by decide)).1

/-! ## Claim C1: total conservation -/

/-- Claim C1 as frozen is false on the code, on all three of its extension
cases.  (1) The whole-input phrase-match path returns `stats.total = 1`
even though the normalized input `i am` has 2 tokens.  (2) A
punctuation-only token (`-`) counts toward `total` but toward none of the
four method counters, so the sum falls short.  (3) A multi-word phrase
match (`i am` inside `i am x`) consumes 2 tokens but adds only 1 to
`direct`, breaking conservation again. -/
theorem c1_counterexample :
    ((translate (mkTranslator [⟨['Z', 'I', 'R', 'D', 'O'],
          ['I', ' ', 'a', 'm']⟩] []) ['i', ' ', 'a', 'm']
        defaultOptions).map (fun r => r.stats.total) = Except.ok 1 ∧
      (splitWSTokens (normalizeWS ['i', ' ', 'a', 'm'])).length = 2) ∧
    ((translate (mkTranslator [] []) ['-'] defaultOptions).map
        (fun r => statsSum r.stats) = Except.ok 0 ∧
      (translate (mkTranslator [] []) ['-'] defaultOptions).map
        (fun r => r.stats.total) = Except.ok 1) ∧
    ((translate (mkTranslator [⟨['Z', 'I', 'R', 'D', 'O'],
          ['I', ' ', 'a', 'm']⟩] []) ['i', ' ', 'a', 'm', ' ', 'x']
        defaultOptions).map (fun r => statsSum r.stats) = Except.ok 2 ∧
      (translate (mkTranslator [⟨['Z', 'I', 'R', 'D', 'O'],
          ['I', ' ', 'a', 'm']⟩] []) ['i', ' ', 'a', 'm', ' ', 'x']
        defaultOptions).map (fun r => r.stats.total) = Except.ok 3) := by
  refine ⟨⟨?_, ?_⟩, ⟨?_, ?_⟩, ⟨?_, ?_⟩⟩ <;> decide

/-- Claim C1 amended: for a non-empty input under default options,
whenever the whole-input phrase match does not fire, `stats.total` equals
the token count of the whitespace-normalized input - with no further
hypotheses, so punctuation-only tokens and multi-word phrase replacements
are covered.  The four method counters sum to `stats.total` under the
additional conditions that the multi-word phrase scan leaves the token
stream untouched and no token is punctuation-only (or a phrase-marker
lookalike): those conditions exclude exactly the remaining two
counterexamples, a multi-word phrase adds one `direct` for several tokens
and punctuation-only tokens feed no counter (the third counterexample, the
whole-input phrase path with its forced `total = 1`, is already excluded by
the no-phrase-match hypothesis). -/
theorem c1_conservation_amended (T : Translator) (s : Str)
    (r : TranslationResultT)
    (h0 : normalizeWS s ≠ [])
    (h1 : checkForPhraseMatch T (normalizeWS s) = Except.ok none)
    (h4 : translate T s defaultOptions = Except.ok r) :
    r.stats.total = (splitWSTokens (normalizeWS s)).length ∧
    (processTextScan T (normalizeWS s) defaultOptions =
        ⟨splitWSTokens (normalizeWS s), [], [], [],
          ⟨0, 0, 0, 0, (splitWSTokens (normalizeWS s)).length⟩⟩ →
      (∀ t ∈ splitWSTokens (normalizeWS s),
        punctOnly t = false ∧ startsWithS t phraseMarkerPfx = false) →
      r.stats.direct + r.stats.partialCt + r.stats.constructed +
        r.stats.missing = r.stats.total) := by
  rw [translate_eq_processText T s defaultOptions h0 rfl h1] at h4
  have htot := processText_total T defaultOptions (normalizeWS s) r h4
  rw [splitWSTokens_normalizeWS] at htot
  refine ⟨htot, ?_⟩
  intro h2 h3
  have hstats := processText_ok_stats T defaultOptions (normalizeWS s) r h4
  unfold processTextResolve at hstats
  rw [h2] at hstats
  dsimp only at hstats
  have hprops := splitWSTokens_props (normalizeWS s)
  have hfold := resolveFold_stats T defaultOptions []
    (splitWSTokens (normalizeWS s))
    ⟨[], [], ⟨0, 0, 0, 0, (splitWSTokens (normalizeWS s)).length⟩, [], []⟩
    (by
      intro t ht
      refine ⟨?_, (h3 t ht).2, (h3 t ht).1⟩
      rw [trimS_of_noWS (hprops t ht).2]
      exact (hprops t ht).1)
  rw [hstats]
  have hsum := hfold.1
  dsimp only [statsSum] at hsum
  rw [hfold.2]
  dsimp only
  omega

theorem c1_conservation_amended_witness :
    ({ translationText := ['A'], phoneticText := ['a'], symbolText := ['a'],
       stats := ⟨0, 0, 0, 1, 1⟩,
       wordAnalysis := [(['A'], [⟨['a'], none⟩])],
       constructionDetails := [(['a'],
         ⟨['a'], ['A'], Method.constructed,
           Explanation.preservedDirect ['a'] ['A'], some []⟩)],
       phraseMatches := [] } : TranslationResultT).stats.total =
      (splitWSTokens (normalizeWS ['a'])).length ∧
    (processTextScan (mkTranslator [] []) (normalizeWS ['a'])
        defaultOptions =
        ⟨splitWSTokens (normalizeWS ['a']), [], [], [],
          ⟨0, 0, 0, 0, (splitWSTokens (normalizeWS ['a'])).length⟩⟩ →
      (∀ t ∈ splitWSTokens (normalizeWS ['a']),
        punctOnly t = false ∧ startsWithS t phraseMarkerPfx = false) →
      ({ translationText := ['A'], phoneticText := ['a'],
         symbolText := ['a'], stats := ⟨0, 0, 0, 1, 1⟩,
         wordAnalysis := [(['A'], [⟨['a'], none⟩])],
         constructionDetails := [(['a'],
           ⟨['a'], ['A'], Method.constructed,
             Explanation.preservedDirect ['a'] ['A'], some []⟩)],
         phraseMatches := [] } : TranslationResultT).stats.direct +
        ({ translationText := ['A'], phoneticText := ['a'],
           symbolText := ['a'], stats := ⟨0, 0, 0, 1, 1⟩,
           wordAnalysis := [(['A'], [⟨['a'], none⟩])],
           constructionDetails := [(['a'],
             ⟨['a'], ['A'], Method.constructed,
               Explanation.preservedDirect ['a'] ['A'], some []⟩)],
           phraseMatches := [] } : TranslationResultT).stats.partialCt +
        ({ translationText := ['A'], phoneticText := ['a'],
           symbolText := ['a'], stats := ⟨0, 0, 0, 1, 1⟩,
           wordAnalysis := [(['A'], [⟨['a'], none⟩])],
           constructionDetails := [(['a'],
             ⟨['a'], ['A'], Method.constructed,
               Explanation.preservedDirect ['a'] ['A'], some []⟩)],
           phraseMatches := [] } : TranslationResultT).stats.constructed +
        ({ translationText := ['A'], phoneticText := ['a'],
           symbolText := ['a'], stats := ⟨0, 0, 0, 1, 1⟩,
           wordAnalysis := [(['A'], [⟨['a'], none⟩])],
           constructionDetails := [(['a'],
             ⟨['a'], ['A'], Method.constructed,
               Explanation.preservedDirect ['a'] ['A'], some []⟩)],
           phraseMatches := [] } : TranslationResultT).stats.missing =
        ({ translationText := ['A'], phoneticText := ['a'],
           symbolText := ['a'], stats := ⟨0, 0, 0, 1, 1⟩,
           wordAnalysis := [(['A'], [⟨['a'], none⟩])],
           constructionDetails := [(['a'],
             ⟨['a'], ['A'], Method.constructed,
               Explanation.preservedDirect ['a'] ['A'], some []⟩)],
           phraseMatches := [] } : TranslationResultT).stats.total) :=
  c1_conservation_amended (mkTranslator [] []) ['a'] _
    (by decide) (by decide) (by decide)

/-! ## Clean-token reduction of the word matcher -/

theorem translateWord_clean (T : Translator) (opts : TranslationOptions)
    (w : Str) (st : Stats) (wa : WAMap) (cd : CDMap)
    (hw : w ≠ []) (hlow : ∀ c ∈ w, 'a' ≤ c) :
    translateWord T opts w st wa cd =
      translateWordCore T opts w [] [] w st wa cd := by
  have h1 := punctOnly_false_of_lower hw hlow
  have h2 := takeWhile_punct_nil hlow
  have h3 : (w.reverse.takeWhile isPunctChar).reverse = [] := by
    rw [takeWhile_punct_nil (fun c hc => hlow c (List.mem_reverse.mp hc))]
    rfl
  have h4 := toLowerS_of_lower hlow
  unfold translateWord
  simp only [h1, Bool.false_eq_true, if_false, h2, h3, List.length_nil,
    List.drop_zero, Nat.sub_zero, List.take_length, h4]

/-! ## Claim C2: behaviour on empty tables -/

/-- The engine built from an empty lexicon and an empty root table. -/
def emptyTranslator : Translator := mkTranslator [] []

theorem emptyTranslator_mtw : emptyTranslator.meaningToWordMap = [] := rfl

theorem emptyTranslator_stem : emptyTranslator.stemMap = [] := rfl

theorem jsGet_nil {α : Type} (k : Str) : jsGet ([] : List (Str × α)) k = none :=
  rfl

theorem hnpAux_empty (w : Str) :
    ∀ L, handleNegationPrefixesAux emptyTranslator w L = none := by
  intro L
  induction L with
  | nil => rfl
  | cons p rest ih =>
    obtain ⟨pfx, fpfx⟩ := p
    rw [handleNegationPrefixesAux]
    simp only [emptyTranslator_mtw, emptyTranslator_stem, jsGet_nil, ih,
      ite_self]

theorem handleNegationPrefixes_empty (w : Str) :
    handleNegationPrefixes emptyTranslator w = none :=
  hnpAux_empty w negationPrefixes

theorem findFuzzyMatch_empty (w : Str) :
    findFuzzyMatch emptyTranslator w = none := by
  unfold findFuzzyMatch
  rw [handleNegationPrefixes_empty w]
  rfl

theorem handleSingleLetterWord_empty (w : Str) :
    handleSingleLetterWord emptyTranslator w = none := by
  unfold handleSingleLetterWord
  split <;> rfl

theorem pluralStep_empty (opts : TranslationOptions) (w : Str) :
    pluralStep emptyTranslator opts w = none := by
  unfold pluralStep
  split <;> rfl

theorem stableSortLE_nil {A : Type} (le : A → A → Bool) :
    stableSortLE le [] = [] := rfl

theorem constructWordFromRoots_empty (w : Str) :
    constructWordFromRoots emptyTranslator w =
      if w.length ≤ 3 then
        some ⟨capitalizeS w, Explanation.preservedDirect w (capitalizeS w),
          some ((toLowerS w).filterMap
            (fun l => findRootForLetter emptyTranslator [l]))⟩
      else none := by
  have hsig : ((toLowerS w).filter isAsciiAlpha).filterMap
      (fun letter => findRootForLetter emptyTranslator [letter]) = [] := by
    rw [List.filterMap_eq_nil_iff]
    intro a _
    rfl
  unfold constructWordFromRoots
  simp only [emptyTranslator_mtw, List.filter_nil, stableSortLE_nil]
  by_cases hl : w.length ≤ 3
  · rw [if_pos hl, if_pos hl]
  · rw [if_neg hl, if_neg hl, hsig]
    simp

theorem translateWordCore_empty (w : Str) (st : Stats) (wa : WAMap)
    (cd : CDMap) :
    translateWordCore emptyTranslator defaultOptions w [] [] w st wa cd =
      (if w.length ≤ 3 then
        (capitalizeS w, { st with constructed := st.constructed + 1 },
          jsSet wa (capitalizeS w) (analyzeRoots emptyTranslator (capitalizeS w)),
          jsSet cd w ⟨w, capitalizeS w, Method.constructed,
            Explanation.preservedDirect w (capitalizeS w),
            some ((toLowerS w).filterMap
              (fun l => findRootForLetter emptyTranslator [l]))⟩)
      else
        ('[' :: w ++ [']'], { st with missing := st.missing + 1 }, wa,
          jsSet cd w ⟨w, '[' :: w ++ [']'], Method.missing,
            Explanation.missingExpl, none⟩)) := by
  unfold translateWordCore
  rw [handleSingleLetterWord_empty w]
  simp only [emptyTranslator_mtw, jsGet_nil]
  rw [show pluralStep emptyTranslator defaultOptions w = none from
    pluralStep_empty defaultOptions w]
  rw [show fuzzyStep emptyTranslator defaultOptions w = none by
    unfold fuzzyStep
    rw [findFuzzyMatch_empty w]
    rfl]
  rw [show constructionStep emptyTranslator defaultOptions w =
      constructWordFromRoots emptyTranslator w from rfl]
  rw [constructWordFromRoots_empty w]
  by_cases hl : w.length ≤ 3
  · rw [if_pos hl, if_pos hl]
    simp
  · rw [if_neg hl, if_neg hl]
    simp

/-! ## Membership lemmas for the assoc-list maps and the sorter -/

theorem jsSet_mem {α : Type} :
    ∀ (l : List (Str × α)) (k : Str) (v : α) (e : Str × α),
      e ∈ jsSet l k v → e ∈ l ∨ e.2 = v := by
  intro l
  induction l with
  | nil =>
    intro k v e h
    rw [jsSet, List.mem_singleton] at h
    subst h
    exact Or.inr rfl
  | cons p rest ih =>
    intro k v e h
    obtain ⟨k', v'⟩ := p
    rw [jsSet] at h
    split at h
    · rcases List.mem_cons.mp h with h1 | h1
      · subst h1
        exact Or.inr rfl
      · exact Or.inl (List.mem_cons_of_mem _ h1)
    · rcases List.mem_cons.mp h with h1 | h1
      · subst h1
        exact Or.inl (List.mem_cons_self _ _)
      · rcases ih k v e h1 with h2 | h2
        · exact Or.inl (List.mem_cons_of_mem _ h2)
        · exact Or.inr h2

theorem jsSet_keys {α : Type} :
    ∀ (l : List (Str × α)) (k : Str) (v : α) (e : Str × α),
      e ∈ jsSet l k v → e.1 ∈ l.map (fun p => p.1) ∨ e.1 = k := by
  intro l
  induction l with
  | nil =>
    intro k v e h
    rw [jsSet, List.mem_singleton] at h
    subst h
    exact Or.inr rfl
  | cons p rest ih =>
    intro k v e h
    obtain ⟨k', v'⟩ := p
    rw [jsSet] at h
    split at h
    · rcases List.mem_cons.mp h with h1 | h1
      · subst h1
        refine Or.inl ?_
        rw [List.map_cons]
        exact List.mem_cons_self k' (rest.map (fun p => p.1))
      · refine Or.inl ?_
        rw [List.map_cons]
        exact List.mem_cons_of_mem k' (List.mem_map_of_mem (fun p => p.1) h1)
    · rcases List.mem_cons.mp h with h1 | h1
      · subst h1
        refine Or.inl ?_
        rw [List.map_cons]
        exact List.mem_cons_self k' (rest.map (fun p => p.1))
      · rcases ih k v e h1 with h2 | h2
        · refine Or.inl ?_
          rw [List.map_cons]
          exact List.mem_cons_of_mem k' h2
        · exact Or.inr h2

theorem insertLE_mem {α : Type} (le : α → α → Bool) (y : α) :
    ∀ (l : List α) (x : α), x ∈ insertLE le y l → x = y ∨ x ∈ l := by
  intro l
  induction l with
  | nil =>
    intro x h
    rw [insertLE, List.mem_singleton] at h
    exact Or.inl h
  | cons z rest ih =>
    intro x h
    rw [insertLE] at h
    split at h
    · rcases List.mem_cons.mp h with h1 | h1
      · exact Or.inr (List.mem_cons.mpr (Or.inl h1))
      · rcases ih x h1 with h2 | h2
        · exact Or.inl h2
        · exact Or.inr (List.mem_cons.mpr (Or.inr h2))
    · rcases List.mem_cons.mp h with h1 | h1
      · exact Or.inl h1
      · exact Or.inr h1

theorem stableSortFold_mem {α : Type} (le : α → α → Bool) :
    ∀ (l acc : List α) (x : α),
      x ∈ l.foldl (fun a z => insertLE le z a) acc → x ∈ l ∨ x ∈ acc := by
  intro l
  induction l with
  | nil =>
    intro acc x h
    exact Or.inr h
  | cons z rest ih =>
    intro acc x h
    rw [List.foldl_cons] at h
    rcases ih (insertLE le z acc) x h with h1 | h1
    · exact Or.inl (List.mem_cons_of_mem z h1)
    · rcases insertLE_mem le z acc x h1 with h2 | h2
      · rw [h2]
        exact Or.inl (List.mem_cons_self z rest)
      · exact Or.inr h2

theorem stableSortLE_mem {α : Type} (le : α → α → Bool) (l : List α) (x : α)
    (h : x ∈ stableSortLE le l) : x ∈ l := by
  unfold stableSortLE at h
  rcases stableSortFold_mem le l [] x h with h1 | h1
  · exact h1
  · cases h1

/-! ## Character-shape lemmas for resolved target words -/

theorem capitalizeS_not_gdash {w : Str} (hw : w ≠ []) (h : ∀ c ∈ w, 'a' ≤ c) :
    startsWithS (capitalizeS w) gDash = false := by
  cases w with
  | nil => exact absurd rfl hw
  | cons c rest =>
    cases rest with
    | nil =>
      unfold startsWithS
      apply decide_eq_false
      intro hp
      have hl := hp.length_le
      simp [capitalizeS, gDash, toLowerS] at hl
    | cons d rest2 =>
      simp only [capitalizeS, toLowerS, List.map_cons]
      unfold startsWithS
      apply decide_eq_false
      intro hp
      rw [show gDash = 'G' :: ['-'] from rfl, List.cons_prefix_cons] at hp
      obtain ⟨-, hp2⟩ := hp
      rw [List.cons_prefix_cons] at hp2
      obtain ⟨hdd, -⟩ := hp2
      have hdl := h d (List.mem_cons_of_mem c (List.mem_cons_self d rest2))
      rw [lowerChar_of_lower hdl] at hdd
      rw [← hdd] at hdl
      exact absurd hdl (by decide)

theorem startsWith_bracket (w : Str) :
    startsWithS ('[' :: w ++ [']']) ['['] = true := by
  unfold startsWithS
  apply decide_eq_true
  exact ⟨w ++ [']'], rfl⟩

/-! ## The rendering pass cannot fail away from `G-` words -/

theorem convertToSymbols_ok (T : Translator) (w : Str)
    (h : startsWithS w gDash = false) :
    ∃ v, convertToSymbols T w = Except.ok v := by
  unfold convertToSymbols
  simp only [convertToSymbolsFuel]
  by_cases h1 : (startsWithS w ['['] && endsWithS w [']']) = true
  · rw [if_pos h1]
    exact ⟨w, rfl⟩
  · rw [if_neg h1]
    cases hf : T.rootData.find? (fun root => root.enochian_name = w) with
    | some root => exact ⟨root.symbol, rfl⟩
    | none =>
      simp only [h, Bool.false_eq_true, if_false]
      exact ⟨_, rfl⟩

theorem gafStep_ok (T : Translator) (e2o : List (Str × Str))
    (e2r : List (Str × List EnochianRootT)) (acc : Str × Str) (w : Str)
    (h : startsWithS w gDash = false) :
    ∃ v, gafStep T e2o e2r acc w = Except.ok v := by
  unfold gafStep
  split
  · exact ⟨acc, rfl⟩
  · dsimp only
    split
    · split
      · exact ⟨_, rfl⟩
      · exact ⟨_, rfl⟩
    · split
      · exact ⟨_, rfl⟩
      · obtain ⟨sv, hsv⟩ := convertToSymbols_ok T w h
        rw [hsv]
        exact ⟨_, rfl⟩

theorem gafFold_ok (T : Translator) (e2o : List (Str × Str))
    (e2r : List (Str × List EnochianRootT)) :
    ∀ (ws : List Str) (acc : Str × Str),
      (∀ w ∈ ws, startsWithS w gDash = false) →
      ∃ v, ws.foldlM (gafStep T e2o e2r) acc = Except.ok v := by
  intro ws
  induction ws with
  | nil =>
    intro acc _
    exact ⟨acc, rfl⟩
  | cons w rest ih =>
    intro acc h
    rw [List.foldlM_cons]
    obtain ⟨v1, hv1⟩ := gafStep_ok T e2o e2r acc w (h w (List.mem_cons_self w rest))
    rw [hv1]
    obtain ⟨v2, hv2⟩ := ih v1 (fun x hx => h x (List.mem_cons_of_mem w hx))
    exact ⟨v2, hv2⟩

theorem gafMapsFold_keys :
    ∀ (cd : CDMap) (acc : List (Str × Str) × List (Str × List EnochianRootT)),
      (∀ e ∈ cd, startsWithS e.2.result ['['] = true ∨
        startsWithS e.2.result gDash = false) →
      (∀ p ∈ acc.1, startsWithS p.1 gDash = false) →
      ∀ p ∈ (cd.foldl gafMapsStep acc).1, startsWithS p.1 gDash = false := by
  intro cd
  induction cd with
  | nil =>
    intro acc _ hacc p hp
    exact hacc p hp
  | cons d rest ih =>
    intro acc hcd hacc p hp
    rw [List.foldl_cons] at hp
    refine ih (gafMapsStep acc d)
      (fun e he => hcd e (List.mem_cons_of_mem d he)) ?_ p hp
    intro q hq
    unfold gafMapsStep at hq
    dsimp only at hq
    split at hq
    · rename_i hbr
      rcases jsSet_keys acc.1 d.2.result d.2.original q hq with h1 | h1
      · rcases List.mem_map.mp h1 with ⟨q', hq', hq1⟩
        rw [← hq1]
        exact hacc q' hq'
      · rw [h1]
        rcases hcd d (List.mem_cons_self d rest) with h2 | h2
        · rw [h2] at hbr
          exact absurd hbr (by decide)
        · exact h2
    · exact hacc q hq

theorem generateAlternateFormats_ok (T : Translator) (tt : Str) (cd : CDMap)
    (hcd : ∀ e ∈ cd, startsWithS e.2.result ['['] = true ∨
      startsWithS e.2.result gDash = false) :
    ∃ v, generateAlternateFormats T tt cd [] = Except.ok v := by
  unfold generateAlternateFormats
  dsimp only
  rw [List.foldl_nil]
  apply gafFold_ok
  intro w hw
  have hm := stableSortLE_mem lenDescLE ((gafMaps cd).1.map (fun e => e.1)) w hw
  rcases List.mem_map.mp hm with ⟨p, hp, hp1⟩
  rw [← hp1]
  exact gafMapsFold_keys cd ([], []) hcd (by intro q hq; cases hq) p hp

/-! ## Empty-table invariant of the resolution pass -/

/-- Invariant maintained over empty-table resolution: no direct or partial
matches are ever recorded, and every construction detail is `constructed`
or `missing` with a result that is bracketed or free of the `G-` marker. -/
def c2Inv (s : ResolveState) : Prop :=
  s.stats.direct = 0 ∧ s.stats.partialCt = 0 ∧
  ∀ e ∈ s.cd,
    (e.2.method = Method.constructed ∨ e.2.method = Method.missing) ∧
    (startsWithS e.2.result ['['] = true ∨ startsWithS e.2.result gDash = false)

theorem c2_resolveStep_inv (pm : List (Str × Str)) (s : ResolveState) (t : Str)
    (htne : t ≠ []) (htlow : ∀ c ∈ t, 'a' ≤ c) (hs : c2Inv s) :
    c2Inv (resolveStep emptyTranslator defaultOptions pm s t) := by
  unfold resolveStep
  rw [trimS_of_lower htlow, if_neg htne]
  simp only [startsWith_marker_false htlow, Bool.false_eq_true, if_false]
  rw [translateWord_clean emptyTranslator defaultOptions t s.stats s.wa s.cd
    htne htlow]
  rw [translateWordCore_empty t s.stats s.wa s.cd]
  by_cases hl : t.length ≤ 3
  · rw [if_pos hl]
    refine ⟨hs.1, hs.2.1, ?_⟩
    intro e he
    rcases jsSet_mem s.cd t _ e he with h1 | h1
    · exact hs.2.2 e h1
    · rw [h1]
      exact ⟨Or.inl rfl, Or.inr (capitalizeS_not_gdash htne htlow)⟩
  · rw [if_neg hl]
    refine ⟨hs.1, hs.2.1, ?_⟩
    intro e he
    rcases jsSet_mem s.cd t _ e he with h1 | h1
    · exact hs.2.2 e h1
    · rw [h1]
      exact ⟨Or.inr rfl, Or.inl (startsWith_bracket t)⟩

theorem c2_resolveFold_inv (pm : List (Str × Str)) :
    ∀ (tokens : List Str) (s : ResolveState),
      (∀ t ∈ tokens, t ≠ [] ∧ ∀ c ∈ t, 'a' ≤ c) →
      c2Inv s →
      c2Inv (tokens.foldl (resolveStep emptyTranslator defaultOptions pm) s) := by
  intro tokens
  induction tokens with
  | nil =>
    intro s _ hs
    exact hs
  | cons t rest ih =>
    intro s h hs
    rw [List.foldl_cons]
    have ht := h t (List.mem_cons_self t rest)
    exact ih (resolveStep emptyTranslator defaultOptions pm s t)
      (fun x hx => h x (List.mem_cons_of_mem t hx))
      (c2_resolveStep_inv pm s t ht.1 ht.2 hs)

theorem splitWSAux_chars :
    ∀ (s cur : Str) (t : Str), t ∈ splitWSAux cur s → ∀ c ∈ t, c ∈ cur ∨ c ∈ s := by
  intro s
  induction s with
  | nil =>
    intro cur t ht c hc
    rw [splitWSAux_nil] at ht
    split at ht
    · cases ht
    · rw [List.mem_singleton] at ht
      subst ht
      exact Or.inl (List.mem_reverse.mp hc)
  | cons a rest ih =>
    intro cur t ht c hc
    rw [splitWSAux_cons] at ht
    split at ht
    · split at ht
      · rcases ih [] t ht c hc with h1 | h2
        · cases h1
        · exact Or.inr (List.mem_cons_of_mem a h2)
      · rcases List.mem_cons.mp ht with h1 | h1
        · subst h1
          exact Or.inl (List.mem_reverse.mp hc)
        · rcases ih [] t h1 c hc with h2 | h2
          · cases h2
          · exact Or.inr (List.mem_cons_of_mem a h2)
    · rcases ih (a :: cur) t ht c hc with h1 | h1
      · rcases List.mem_cons.mp h1 with h2 | h2
        · rw [h2]
          exact Or.inr (List.mem_cons_self a rest)
        · exact Or.inl h2
      · exact Or.inr (List.mem_cons_of_mem a h1)

theorem splitWSTokens_chars (s : Str) :
    ∀ t ∈ splitWSTokens s, ∀ c ∈ t, c ∈ s := by
  intro t ht c hc
  rcases splitWSAux_chars s [] t ht c hc with h | h
  · cases h
  · exact h

/-! ## Empty phrase machinery of the empty engine -/

theorem findFuzzyPhraseMatch_empty (t : Str) :
    findFuzzyPhraseMatch emptyTranslator t = none := rfl

theorem checkForPhraseMatch_empty (t : Str) :
    checkForPhraseMatch emptyTranslator t = Except.ok none := by
  unfold checkForPhraseMatch
  split
  · rfl
  · rfl

theorem fmwpTryWindows_empty (words : List Str) (i : Nat) :
    ∀ j, fmwpTryWindows emptyTranslator words i j = none := by
  intro j
  induction j with
  | zero => rfl
  | succ j ih =>
    rw [fmwpTryWindows]
    simp only [findFuzzyPhraseMatch_empty, ih, ite_self]

theorem fmwpOuter_empty :
    ∀ (fuel : Nat) (s : ScanState) (i : Nat),
      fmwpOuter emptyTranslator fuel s i = s := by
  intro fuel
  induction fuel with
  | zero =>
    intro s i
    rfl
  | succ fuel ih =>
    intro s i
    rw [fmwpOuter]
    by_cases hi : i < s.words.length
    · rw [dif_pos hi]
      split
      · exact ih s (i + 1)
      · rw [fmwpTryWindows_empty]
        exact ih s (i + 1)
    · rw [dif_neg hi]

theorem findMultiWordPhrases_empty (s : ScanState) :
    findMultiWordPhrases emptyTranslator s = s := by
  unfold findMultiWordPhrases
  split
  · rfl
  · exact fmwpOuter_empty s.words.length s 0

theorem processTextScan_empty (t : Str) (opts : TranslationOptions) :
    processTextScan emptyTranslator t opts =
      ⟨splitWSTokens (normalizeWS t), [], [], [],
        ⟨0, 0, 0, 0, (splitWSTokens (normalizeWS t)).length⟩⟩ := by
  unfold processTextScan
  split
  · exact findMultiWordPhrases_empty _
  · rfl

/-! ## Claim C2 -/

/-- Claim C2 as frozen is false on the code in both halves.  (1) `translate`
does throw: with the lexicon entry TELOC / mortal and an empty root table,
the word `immortal` resolves through the negation path to `G-TELOC`, whose
symbol rendering reads the letter map's `g` entry unguarded - the empty
root table has none, so the call throws (modelled `Except.error ()`).  (2)
With both tables empty the word `cat` does not resolve to the missing
classification: root construction preserves it verbatim as `constructed`. -/
theorem c2_counterexample :
    translate (mkTranslator [⟨['T', 'E', 'L', 'O', 'C'],
        ['m', 'o', 'r', 't', 'a', 'l']⟩] [])
      ['i', 'm', 'm', 'o', 'r', 't', 'a', 'l'] defaultOptions =
      Except.error () ∧
    (translate (mkTranslator [] []) ['c', 'a', 't'] defaultOptions).map
        (fun r => (r.stats.missing, r.stats.constructed,
          (jsGet r.constructionDetails ['c', 'a', 't']).map
            (fun d => d.method))) =
      Except.ok (0, 1, some Method.constructed) := by
  constructor <;> decide

/-- Claim C2 amended: the no-throw half holds once the engine's tables are
actually empty (the thrown-error path needs a lexicon-produced `G-` word),
and with empty tables no lookup ever succeeds: over inputs of lowercase
letters and whitespace, `translate` on the empty engine always returns a
well-formed result whose `direct` and `partial` counters are zero and whose
construction details all carry the `constructed` or `missing`
classification - `missing` is however not the only outcome, short words
are preserved as `constructed`. -/
theorem c2_safety_amended (s : Str)
    (h : ∀ c ∈ s, isWSChar c = true ∨ 'a' ≤ c) :
    ∃ r, translate emptyTranslator s defaultOptions = Except.ok r ∧
      r.stats.direct = 0 ∧ r.stats.partialCt = 0 ∧
      ∀ e ∈ r.constructionDetails,
        e.2.method = Method.constructed ∨ e.2.method = Method.missing := by
  by_cases h0 : normalizeWS s = []
  · refine ⟨createEmptyResult, ?_, rfl, rfl, ?_⟩
    · unfold translate
      rw [if_pos h0]
    · intro e he
      cases he
  · have htok : ∀ t ∈ splitWSTokens (normalizeWS (normalizeWS s)),
        t ≠ [] ∧ ∀ c ∈ t, 'a' ≤ c := by
      intro t ht
      rw [splitWSTokens_normalizeWS, splitWSTokens_normalizeWS] at ht
      have hp := splitWSTokens_props s t ht
      refine ⟨hp.1, ?_⟩
      intro c hc
      rcases h c (splitWSTokens_chars s t ht c hc) with hws | hlow
      · rw [hp.2 c hc] at hws
        exact Bool.noConfusion hws
      · exact hlow
    have hscan := processTextScan_empty (normalizeWS s) defaultOptions
    have hres : c2Inv
        (processTextResolve emptyTranslator (normalizeWS s) defaultOptions) := by
      unfold processTextResolve
      rw [hscan]
      dsimp only
      exact c2_resolveFold_inv [] (splitWSTokens (normalizeWS (normalizeWS s)))
        ⟨[], [],
          ⟨0, 0, 0, 0, (splitWSTokens (normalizeWS (normalizeWS s))).length⟩,
          [], []⟩
        htok ⟨rfl, rfl, by intro e he; cases he⟩
    obtain ⟨hd, hpc, hcd⟩ := hres
    obtain ⟨v, hv⟩ := generateAlternateFormats_ok emptyTranslator
      (List.intercalate [' ']
        ((processTextResolve emptyTranslator (normalizeWS s)
          defaultOptions).out.filter (fun w => w ≠ [])))
      (processTextResolve emptyTranslator (normalizeWS s) defaultOptions).cd
      (fun e he => (hcd e he).2)
    rw [translate_eq_processText emptyTranslator s defaultOptions h0 rfl
      (checkForPhraseMatch_empty (normalizeWS s))]
    unfold processText
    dsimp only
    rw [hscan]
    dsimp only
    rw [hv]
    exact ⟨_, rfl, hd, hpc, fun e he => (hcd e he).1⟩

theorem c2_safety_amended_witness :
    ∃ r, translate emptyTranslator ['c', 'a', 't', ' ', 'w', 'x', 'y', 'z']
        defaultOptions = Except.ok r ∧
      r.stats.direct = 0 ∧ r.stats.partialCt = 0 ∧
      ∀ e ∈ r.constructionDetails,
        e.2.method = Method.constructed ∨ e.2.method = Method.missing :=
  c2_safety_amended ['c', 'a', 't', ' ', 'w', 'x', 'y', 'z'] (by decide)

/-! ## Claim C3: negation prefixes -/

theorem gDash_append_ne (m : Str) : gDash ++ m ≠ m := by
  intro h
  have hl := congrArg List.length h
  rw [List.length_append] at hl
  have h2 : gDash.length = 2 := rfl
  omega

/-- Inversion of the negation scan: a produced compound always comes from a
listed prefix whose remainder is at least 3 characters long and has a
direct or stemmed lexicon match, and is `G-` plus that match. -/
theorem hnpAux_inversion (T : Translator) (w : Str) :
    ∀ (L : List (Str × Str)) (r : Str) (e : Explanation),
      handleNegationPrefixesAux T w L = some (r, e) →
      ∃ pfx fullPfx m, (pfx, fullPfx) ∈ L ∧
        startsWithS (toLowerS w) (toLowerS pfx) = true ∧
        3 ≤ (w.drop fullPfx.length).length ∧
        (jsGet T.meaningToWordMap (w.drop fullPfx.length) = some m ∨
          ∃ tail, jsGet T.stemMap (stemWord (w.drop fullPfx.length)) =
            some (m :: tail)) ∧
        r = gDash ++ m := by
  intro L
  induction L with
  | nil =>
    intro r e h
    cases h
  | cons p rest ih =>
    obtain ⟨pfx, fullPfx⟩ := p
    intro r e h
    rw [handleNegationPrefixesAux] at h
    split at h
    · rename_i hstart
      dsimp only at h
      split at h
      · rename_i hlen
        split at h
        · rename_i m heq
          rw [Option.some.injEq, Prod.mk.injEq] at h
          obtain ⟨hr, he⟩ := h
          exact ⟨pfx, fullPfx, m, List.mem_cons_self (pfx, fullPfx) rest,
            hstart, hlen, Or.inl heq, hr.symm⟩
        · split at h
          · rename_i m tail heq
            rw [Option.some.injEq, Prod.mk.injEq] at h
            obtain ⟨hr, he⟩ := h
            exact ⟨pfx, fullPfx, m, List.mem_cons_self (pfx, fullPfx) rest,
              hstart, hlen, Or.inr ⟨tail, heq⟩, hr.symm⟩
          · obtain ⟨p', f', m, hmem, h1, h2, h3, h4⟩ := ih r e h
            exact ⟨p', f', m, List.mem_cons_of_mem (pfx, fullPfx) hmem,
              h1, h2, h3, h4⟩
      · obtain ⟨p', f', m, hmem, h1, h2, h3, h4⟩ := ih r e h
        exact ⟨p', f', m, List.mem_cons_of_mem (pfx, fullPfx) hmem,
          h1, h2, h3, h4⟩
    · obtain ⟨p', f', m, hmem, h1, h2, h3, h4⟩ := ih r e h
      exact ⟨p', f', m, List.mem_cons_of_mem (pfx, fullPfx) hmem,
        h1, h2, h3, h4⟩

/-- A root table entry for the letter `g` (keeps the symbol renderer away
from the unguarded `enochianLetterMap['g']` read on `G-` compounds). -/
def gRoot : EnochianRootT :=
  ⟨['g'], ['G', 'e', 'd'], 8, ['n', 'o', 't'], ['#']⟩

/-- Lexicon TELOC / mortal plus the `g` root. -/
def tImmortal : Translator :=
  mkTranslator [⟨['T', 'E', 'L', 'O', 'C'],
    ['m', 'o', 'r', 't', 'a', 'l']⟩] [gRoot]

/-- Lexicon OL / light, alights plus the `g` root: `alights` stems to
`alight`, and `light` is reachable from `alight` through the `a` negation
prefix. -/
def tAlight : Translator :=
  mkTranslator [⟨['O', 'L'],
    ['l', 'i', 'g', 'h', 't', ',', ' ', 'a', 'l', 'i', 'g', 'h', 't', 's']⟩]
    [gRoot]

/-- Claim C3 as frozen is false in its last conjunct: the negated form does
not always translate differently from the base word.  With lexicon OL /
light, alights, the token `unalight` satisfies every hypothesis of the
claim (prefix `un`, remainder `alight` of length 6 with a stemmed lexicon
match, no earlier cascade stage resolves it) and resolves to `G-OL` as
`partial` - but the base word `alight` alone also translates to `G-OL`,
because `alight` itself resolves through the `a` negation prefix with base
`light`.  The target texts coincide. -/
theorem c3_counterexample :
    ((translate tAlight ['u', 'n', 'a', 'l', 'i', 'g', 'h', 't']
        defaultOptions).map (fun r => r.translationText) =
      Except.ok ['G', '-', 'O', 'L'] ∧
    (translate tAlight ['a', 'l', 'i', 'g', 'h', 't'] defaultOptions).map
        (fun r => r.translationText) =
      Except.ok ['G', '-', 'O', 'L']) ∧
    (translate tAlight ['u', 'n', 'a', 'l', 'i', 'g', 'h', 't']
        defaultOptions).map
        (fun r => (jsGet r.constructionDetails
          ['u', 'n', 'a', 'l', 'i', 'g', 'h', 't']).map (fun d => d.method)) =
      Except.ok (some Method.partialM) ∧
    handleSingleLetterWord tAlight
      ['u', 'n', 'a', 'l', 'i', 'g', 'h', 't'] = none ∧
    jsGet tAlight.meaningToWordMap
      ['u', 'n', 'a', 'l', 'i', 'g', 'h', 't'] = none ∧
    pluralStep tAlight defaultOptions
      ['u', 'n', 'a', 'l', 'i', 'g', 'h', 't'] = none ∧
    startsWithS ['u', 'n', 'a', 'l', 'i', 'g', 'h', 't'] ['u', 'n'] = true ∧
    jsGet tAlight.stemMap
        (stemWord (['u', 'n', 'a', 'l', 'i', 'g', 'h', 't'].drop 2)) =
      some [['O', 'L']] := by
  decide

/-- Claim C3 amended: a clean lowercase token that no earlier cascade stage
resolves and on which the negation scan fires is resolved (fuzzy matching
enabled) to the compound the scan produced, classified `partial`; the
compound comes from a listed negation prefix whose remainder is at least 3
characters with a direct or stemmed lexicon match `m`, equals `G-` + `m`,
and in particular differs from the base word's own target word `m`.  (The
frozen claim's stronger conjunct - that it differs from the base word's
whole translation - fails when the base itself resolves through negation,
see the counterexample.) -/
theorem c3_negation_amended (T : Translator) (opts : TranslationOptions)
    (w r : Str) (e : Explanation) (st : Stats) (wa : WAMap) (cd : CDMap)
    (hw : w ≠ []) (hlow : ∀ c ∈ w, 'a' ≤ c)
    (h1 : handleSingleLetterWord T w = none)
    (h2 : jsGet T.meaningToWordMap w = none)
    (h3 : pluralStep T opts w = none)
    (hfz : opts.fuzzyMatching = true)
    (hneg : handleNegationPrefixes T w = some (r, e)) :
    translateWord T opts w st wa cd =
      (r, { st with partialCt := st.partialCt + 1 },
        jsSet wa r (analyzeRoots T r),
        jsSet cd w ⟨w, r, Method.partialM, e, none⟩) ∧
    ∃ pfx fullPfx m, (pfx, fullPfx) ∈ negationPrefixes ∧
      startsWithS (toLowerS w) (toLowerS pfx) = true ∧
      3 ≤ (w.drop fullPfx.length).length ∧
      (jsGet T.meaningToWordMap (w.drop fullPfx.length) = some m ∨
        ∃ tail, jsGet T.stemMap (stemWord (w.drop fullPfx.length)) =
          some (m :: tail)) ∧
      r = gDash ++ m ∧ r ≠ m := by
  constructor
  · rw [translateWord_clean T opts w st wa cd hw hlow]
    unfold translateWordCore fuzzyStep
    rw [h1, h2, h3, hfz]
    unfold findFuzzyMatch
    rw [hneg]
    simp
  · obtain ⟨pfx, fullPfx, m, hmem, hs1, hs2, hs3, hs4⟩ :=
      hnpAux_inversion T w negationPrefixes r e hneg
    refine ⟨pfx, fullPfx, m, hmem, hs1, hs2, hs3, hs4, ?_⟩
    rw [hs4]
    exact gDash_append_ne m

theorem c3_negation_amended_witness :
    (translateWord tImmortal defaultOptions
        ['i', 'm', 'm', 'o', 'r', 't', 'a', 'l'] ⟨0, 0, 0, 0, 1⟩ [] [] =
      (['G', '-', 'T', 'E', 'L', 'O', 'C'], ⟨0, 1, 0, 0, 1⟩,
        jsSet [] ['G', '-', 'T', 'E', 'L', 'O', 'C']
          (analyzeRoots tImmortal ['G', '-', 'T', 'E', 'L', 'O', 'C']),
        jsSet [] ['i', 'm', 'm', 'o', 'r', 't', 'a', 'l']
          ⟨['i', 'm', 'm', 'o', 'r', 't', 'a', 'l'],
            ['G', '-', 'T', 'E', 'L', 'O', 'C'], Method.partialM,
            Explanation.negationDirect ['i', 'm']
              ['i', 'm', 'm', 'o', 'r', 't', 'a', 'l']
              ['m', 'o', 'r', 't', 'a', 'l'] ['T', 'E', 'L', 'O', 'C']
              ['G', '-', 'T', 'E', 'L', 'O', 'C'], none⟩)) ∧
    ∃ pfx fullPfx m, (pfx, fullPfx) ∈ negationPrefixes ∧
      startsWithS (toLowerS ['i', 'm', 'm', 'o', 'r', 't', 'a', 'l'])
        (toLowerS pfx) = true ∧
      3 ≤ (['i', 'm', 'm', 'o', 'r', 't', 'a', 'l'].drop
        fullPfx.length).length ∧
      (jsGet tImmortal.meaningToWordMap
          (['i', 'm', 'm', 'o', 'r', 't', 'a', 'l'].drop fullPfx.length) =
          some m ∨
        ∃ tail, jsGet tImmortal.stemMap
          (stemWord (['i', 'm', 'm', 'o', 'r', 't', 'a', 'l'].drop
            fullPfx.length)) = some (m :: tail)) ∧
      ['G', '-', 'T', 'E', 'L', 'O', 'C'] = gDash ++ m ∧
      ['G', '-', 'T', 'E', 'L', 'O', 'C'] ≠ m :=
  c3_negation_amended tImmortal defaultOptions
    ['i', 'm', 'm', 'o', 'r', 't', 'a', 'l'] ['G', '-', 'T', 'E', 'L', 'O', 'C']
    (Explanation.negationDirect ['i', 'm']
      ['i', 'm', 'm', 'o', 'r', 't', 'a', 'l'] ['m', 'o', 'r', 't', 'a', 'l']
      ['T', 'E', 'L', 'O', 'C'] ['G', '-', 'T', 'E', 'L', 'O', 'C'])
    ⟨0, 0, 0, 0, 1⟩ [] [] (by decide) (by decide) (by decide) (by decide)
    (by decide) rfl (by decide)

/-! ## Claim C4: no false substring negation -/

/-- The lexicon meaning a fuzzy-substring explanation blames, `none` for
every other explanation shape. -/
def substExplMeaning : Explanation → Option Str
  | Explanation.wordInMeaning _ meaning _ => some meaning
  | Explanation.meaningInWord meaning _ _ => some meaning
  | _ => none

theorem negationPrefixStrings_ne_nil : ∀ pfx ∈ negationPrefixStrings,
    pfx ≠ [] := by decide

theorem fuzzyCandidateScore_negation (w m pfx : Str)
    (hp : pfx ∈ negationPrefixStrings) (hw : w = pfx ++ m) :
    fuzzyCandidateScore w m = none := by
  have hcs : containsSub w m = true := by
    unfold containsSub
    apply decide_eq_true
    rw [hw]
    exact (List.suffix_append pfx m).isInfix
  have hneg : hasNegationPrefix w m = true := by
    unfold hasNegationPrefix
    rw [if_neg ?hne]
    case hne =>
      intro heq
      rw [hw] at heq
      have hl := congrArg List.length heq
      rw [List.length_append] at hl
      have hpn : pfx ≠ [] := negationPrefixStrings_ne_nil pfx hp
      have hpl : 0 < pfx.length := List.length_pos.mpr hpn
      omega
    rw [List.any_eq_true]
    refine ⟨pfx, hp, ?_⟩
    rw [Bool.and_eq_true]
    constructor
    · unfold startsWithS
      apply decide_eq_true
      rw [hw]
      exact List.prefix_append pfx m
    · apply decide_eq_true
      rw [hw]
      exact List.drop_left pfx m
  unfold fuzzyCandidateScore
  simp [hcs, hneg]

theorem fuzzyScanFold_noNeg (w : Str) :
    ∀ (L : List (Str × Str)) (acc : FuzzyAcc),
      (∀ t ex m, acc.best = some (t, ex) → substExplMeaning ex = some m →
        ∀ pfx ∈ negationPrefixStrings, w ≠ pfx ++ m) →
      ∀ t ex m, (L.foldl (fuzzyScanStep w) acc).best = some (t, ex) →
        substExplMeaning ex = some m →
        ∀ pfx ∈ negationPrefixStrings, w ≠ pfx ++ m := by
  intro L
  induction L with
  | nil =>
    intro acc hacc
    exact hacc
  | cons e rest ih =>
    intro acc hacc
    rw [List.foldl_cons]
    apply ih
    intro t ex m hbest hex pfx hp hw
    unfold fuzzyScanStep at hbest
    split at hbest
    · rename_i score hsc
      split at hbest
      · dsimp only at hbest
        rw [Option.some.injEq, Prod.mk.injEq] at hbest
        obtain ⟨ht, hexeq⟩ := hbest
        have hme : m = e.1 := by
          rw [← hexeq] at hex
          unfold fuzzyCandidateExpl at hex
          split at hex
          · rw [substExplMeaning] at hex
            exact (Option.some.injEq _ _ ▸ hex).symm
          · rw [substExplMeaning] at hex
            exact (Option.some.injEq _ _ ▸ hex).symm
        rw [hme] at hw
        rw [fuzzyCandidateScore_negation w e.1 pfx hp hw] at hsc
        cases hsc
      · exact hacc t ex m hbest hex pfx hp hw
    · exact hacc t ex m hbest hex pfx hp hw

theorem fuzzySubstringScan_noNeg (T : Translator) (w t : Str)
    (ex : Explanation) (m pfx : Str)
    (hscan : fuzzySubstringScan T w = some (t, ex))
    (hex : substExplMeaning ex = some m) (hp : pfx ∈ negationPrefixStrings) :
    w ≠ pfx ++ m := by
  unfold fuzzySubstringScan at hscan
  dsimp only at hscan
  split at hscan
  · rename_i be hbe
    split at hscan
    · rw [Option.some.injEq] at hscan
      subst hscan
      exact fuzzyScanFold_noNeg w T.meaningToWordMap ⟨none, ⟨0, 1⟩⟩
        (by intro t' ex' m' hb; cases hb) t ex m hbe hex pfx hp
    · cases hscan
  · cases hscan

theorem hnpAux_expl (T : Translator) (w : Str) :
    ∀ (L : List (Str × Str)) (r : Str) (e : Explanation),
      handleNegationPrefixesAux T w L = some (r, e) →
      substExplMeaning e = none := by
  intro L
  induction L with
  | nil =>
    intro r e h
    cases h
  | cons p rest ih =>
    obtain ⟨pfx, fullPfx⟩ := p
    intro r e h
    rw [handleNegationPrefixesAux] at h
    split at h
    · dsimp only at h
      split at h
      · split at h
        · rw [Option.some.injEq, Prod.mk.injEq] at h
          rw [← h.2]
          rfl
        · split at h
          · rw [Option.some.injEq, Prod.mk.injEq] at h
            rw [← h.2]
            rfl
          · exact ih r e h
      · exact ih r e h
    · exact ih r e h

/-- Claim C4 (confirmed): when a word is exactly a negation prefix followed
by a lexicon meaning, the generic substring-containment stage never matches
the word to that meaning: whatever `findFuzzyMatch` returns, if its
explanation blames a meaning `m` through the substring rule, the word is
not negation-prefix + `m` - such words go through the dedicated negation
path (whose explanations blame no substring meaning) or do not match. -/
theorem c4_no_false_substring_negation (T : Translator) (w r : Str)
    (e : Explanation) (m pfx : Str)
    (hm : findFuzzyMatch T w = some (r, e))
    (hex : substExplMeaning e = some m)
    (hp : pfx ∈ negationPrefixStrings) :
    w ≠ pfx ++ m := by
  unfold findFuzzyMatch at hm
  split at hm
  · rename_i p hneg
    rw [Option.some.injEq] at hm
    subst hm
    have hnone := hnpAux_expl T w negationPrefixes r e hneg
    rw [hnone] at hex
    cases hex
  · dsimp only at hm
    split at hm
    · rename_i m' tail heq
      rw [Option.some.injEq, Prod.mk.injEq] at hm
      rw [← hm.2] at hex
      simp [substExplMeaning] at hex
    · exact fuzzySubstringScan_noNeg T w r e m pfx hm hex hp

/-- Lexicon XX / ortal: `ortal` is contained in `mortal`, so the substring
stage fires with a `meaning appears in word` explanation. -/
def tOrtal : Translator :=
  mkTranslator [⟨['X', 'X'], ['o', 'r', 't', 'a', 'l']⟩] []

theorem c4_no_false_substring_negation_witness :
    findFuzzyMatch tOrtal ['m', 'o', 'r', 't', 'a', 'l'] =
      some (['X', 'X'],
        Explanation.meaningInWord ['o', 'r', 't', 'a', 'l']
          ['m', 'o', 'r', 't', 'a', 'l'] ['X', 'X']) ∧
    substExplMeaning
        (Explanation.meaningInWord ['o', 'r', 't', 'a', 'l']
          ['m', 'o', 'r', 't', 'a', 'l'] ['X', 'X']) =
      some ['o', 'r', 't', 'a', 'l'] ∧
    ['a'] ∈ negationPrefixStrings ∧
    ['m', 'o', 'r', 't', 'a', 'l'] ≠ ['a'] ++ ['o', 'r', 't', 'a', 'l'] :=
  ⟨by decide, by decide, by decide,
    c4_no_false_substring_negation tOrtal ['m', 'o', 'r', 't', 'a', 'l']
      ['X', 'X']
      (Explanation.meaningInWord ['o', 'r', 't', 'a', 'l']
        ['m', 'o', 'r', 't', 'a', 'l'] ['X', 'X'])
      ['o', 'r', 't', 'a', 'l'] ['a'] (by decide) (by decide) (by decide)⟩

/-! ## Claim C5: single-letter tokens -/

/-- Lexicon X / g next to a root entry for `g`: the root wins. -/
def tLetterG : Translator := mkTranslator [⟨['X'], ['g']⟩] [gRoot]

/-- Claim C5 (confirmed): a token that is a single lowercase letter is
resolved by `translateWord` from the root table as a `direct` match
whenever a root entry for the letter exists - no lexicon hypothesis is
needed, the lexicon is never consulted in that case; only when no root
entry exists does it fall back to an exact lexicon lookup; and
`checkForPhraseMatch` skips single letters, so a whole single-letter input
never goes through phrase matching. -/
theorem c5_single_letter (T : Translator) (opts : TranslationOptions)
    (c : Char) (st : Stats) (wa : WAMap) (cd : CDMap)
    (h1 : 'a' ≤ c) (h2 : c ≤ 'z') :
    (∀ root, findRootForLetter T [c] = some root →
      translateWord T opts [c] st wa cd =
        (root.enochian_name, { st with direct := st.direct + 1 },
          jsSet wa root.enochian_name (analyzeRoots T root.enochian_name),
          jsSet cd [c] ⟨[c], root.enochian_name, Method.direct,
            Explanation.letterName [c] root.enochian_name
              (splitColonHeadTrim root.meaning), none⟩)) ∧
    (findRootForLetter T [c] = none → ∀ m,
      jsGet T.meaningToWordMap [c] = some m →
      translateWord T opts [c] st wa cd =
        (m, { st with direct := st.direct + 1 },
          jsSet wa m (analyzeRoots T m),
          jsSet cd [c] ⟨[c], m, Method.direct,
            Explanation.singleLetterLexicon [c] m, none⟩)) ∧
    checkForPhraseMatch T [c] = Except.ok none := by
  have hlow : ∀ x ∈ [c], 'a' ≤ x := by
    intro x hx
    rw [List.mem_singleton] at hx
    rw [hx]
    exact h1
  have hsa : singleAlpha [c] = true := by
    show isAsciiAlpha c = true
    unfold isAsciiAlpha
    rw [decide_eq_true h1, decide_eq_true h2]
    rfl
  refine ⟨?_, ?_, ?_⟩
  · intro root hroot
    have hslw : handleSingleLetterWord T [c] =
        some ⟨root.enochian_name, Method.direct,
          Explanation.letterName [c] root.enochian_name
            (splitColonHeadTrim root.meaning)⟩ := by
      unfold handleSingleLetterWord
      rw [if_pos hsa, hroot]
    rw [translateWord_clean T opts [c] st wa cd (by simp) hlow]
    unfold translateWordCore
    rw [hslw]
    simp
  · intro hroot m hlex
    have hslw : handleSingleLetterWord T [c] =
        some ⟨m, Method.direct, Explanation.singleLetterLexicon [c] m⟩ := by
      unfold handleSingleLetterWord
      rw [if_pos hsa, hroot, hlex]
    rw [translateWord_clean T opts [c] st wa cd (by simp) hlow]
    unfold translateWordCore
    rw [hslw]
    simp
  · unfold checkForPhraseMatch
    rw [if_pos hsa]

theorem c5_single_letter_witness :
    (∀ root, findRootForLetter tLetterG ['g'] = some root →
      translateWord tLetterG defaultOptions ['g'] ⟨0, 0, 0, 0, 1⟩ [] [] =
        (root.enochian_name, ⟨1, 0, 0, 0, 1⟩,
          jsSet [] root.enochian_name
            (analyzeRoots tLetterG root.enochian_name),
          jsSet [] ['g'] ⟨['g'], root.enochian_name, Method.direct,
            Explanation.letterName ['g'] root.enochian_name
              (splitColonHeadTrim root.meaning), none⟩)) ∧
    (findRootForLetter tLetterG ['g'] = none → ∀ m,
      jsGet tLetterG.meaningToWordMap ['g'] = some m →
      translateWord tLetterG defaultOptions ['g'] ⟨0, 0, 0, 0, 1⟩ [] [] =
        (m, ⟨1, 0, 0, 0, 1⟩, jsSet [] m (analyzeRoots tLetterG m),
          jsSet [] ['g'] ⟨['g'], m, Method.direct,
            Explanation.singleLetterLexicon ['g'] m, none⟩)) ∧
    checkForPhraseMatch tLetterG ['g'] = Except.ok none :=
  c5_single_letter tLetterG defaultOptions 'g' ⟨0, 0, 0, 0, 1⟩ [] []
    (by decide) (by decide)

/-! ## Claim C7: root construction preserves the word -/

/-- Claim C7 as frozen is false for long rootless words: a word that
reaches the construction stage with no whole-word lexicon occurrence is
preserved verbatim only when it is short or some letter has a root entry;
`wxyz` (4 letters, no roots in a table holding only `g`) yields `none` from
`constructWordFromRoots` and the whole cascade classifies it `missing` with
the bracketed placeholder, not a preserved `constructed` word. -/
theorem c7_counterexample :
    constructWordFromRoots (mkTranslator [] [gRoot])
      ['w', 'x', 'y', 'z'] = none ∧
    (translate (mkTranslator [] [gRoot]) ['w', 'x', 'y', 'z']
        defaultOptions).map
      (fun r => (jsGet r.constructionDetails ['w', 'x', 'y', 'z']).map
        (fun d => (d.method, d.result))) =
      Except.ok (some (Method.missing, ['[', 'w', 'x', 'y', 'z', ']'])) := by
  constructor <;> decide

/-- Claim C7 amended: for a word with no whole-word lexicon occurrence
(the second-chance filter matches no meaning), the construction stage
preserves the input verbatim with its first letter capitalized and
attaches per-letter root metadata - it never synthesizes a word from root
initials - when the word has at most 3 letters, or when it is longer and
at least one letter has a root entry; a longer word none of whose letters
has a root entry yields `none` instead (and the cascade then classifies it
`missing`, the correction to the frozen claim).  Whenever the stage does
produce a word, `translateWord` classifies it `constructed`. -/
theorem c7_construction_amended (T : Translator) (w : Str)
    (hfilter : ∀ e ∈ T.meaningToWordMap, cwfrFilter w e.1 = false) :
    (w.length ≤ 3 →
      constructWordFromRoots T w =
        some ⟨capitalizeS w, Explanation.preservedDirect w (capitalizeS w),
          some ((toLowerS w).filterMap (fun l => findRootForLetter T [l]))⟩) ∧
    (3 < w.length →
      constructWordFromRoots T w =
        (if ((toLowerS w).filter isAsciiAlpha).filterMap
            (fun letter => findRootForLetter T [letter]) ≠ [] then
          some ⟨capitalizeS w,
            Explanation.preservedWithRoots
              (((toLowerS w).filter isAsciiAlpha).filterMap
                (fun letter => findRootForLetter T [letter])),
            some (((toLowerS w).filter isAsciiAlpha).filterMap
              (fun letter => findRootForLetter T [letter]))⟩
        else none)) ∧
    (∀ (opts : TranslationOptions) (st : Stats) (wa : WAMap) (cd : CDMap)
        (c : Constructed),
      w ≠ [] → (∀ ch ∈ w, 'a' ≤ ch) →
      handleSingleLetterWord T w = none →
      jsGet T.meaningToWordMap w = none →
      pluralStep T opts w = none →
      fuzzyStep T opts w = none →
      constructionStep T opts w = some c →
      translateWord T opts w st wa cd =
        (c.word, { st with constructed := st.constructed + 1 },
          jsSet wa c.word (analyzeRoots T c.word),
          jsSet cd w ⟨w, c.word, Method.constructed, c.explanation,
            c.originalRoots⟩)) := by
  have hfe : T.meaningToWordMap.filter (fun e => cwfrFilter w e.1) = [] := by
    rw [List.filter_eq_nil_iff]
    intro e he
    rw [hfilter e he]
    simp
  refine ⟨?_, ?_, ?_⟩
  · intro hl
    unfold constructWordFromRoots
    rw [hfe, stableSortLE_nil]
    dsimp only
    rw [if_pos hl]
  · intro hl
    unfold constructWordFromRoots
    rw [hfe, stableSortLE_nil]
    dsimp only
    rw [if_neg (by omega : ¬w.length ≤ 3)]
  · intro opts st wa cd c hw hlow h1 h2 h3 h4 h5
    rw [translateWord_clean T opts w st wa cd hw hlow]
    unfold translateWordCore
    rw [h1, h2, h3, h4, h5]
    simp

theorem c7_construction_amended_witness :
    ((['z', 'a', 'b'] : Str).length ≤ 3 →
      constructWordFromRoots tImmortal ['z', 'a', 'b'] =
        some ⟨capitalizeS ['z', 'a', 'b'],
          Explanation.preservedDirect ['z', 'a', 'b']
            (capitalizeS ['z', 'a', 'b']),
          some ((toLowerS ['z', 'a', 'b']).filterMap
            (fun l => findRootForLetter tImmortal [l]))⟩) ∧
    (3 < (['z', 'a', 'b'] : Str).length →
      constructWordFromRoots tImmortal ['z', 'a', 'b'] =
        (if ((toLowerS ['z', 'a', 'b']).filter isAsciiAlpha).filterMap
            (fun letter => findRootForLetter tImmortal [letter]) ≠ [] then
          some ⟨capitalizeS ['z', 'a', 'b'],
            Explanation.preservedWithRoots
              (((toLowerS ['z', 'a', 'b']).filter isAsciiAlpha).filterMap
                (fun letter => findRootForLetter tImmortal [letter])),
            some (((toLowerS ['z', 'a', 'b']).filter isAsciiAlpha).filterMap
              (fun letter => findRootForLetter tImmortal [letter]))⟩
        else none)) ∧
    (∀ (opts : TranslationOptions) (st : Stats) (wa : WAMap) (cd : CDMap)
        (c : Constructed),
      (['z', 'a', 'b'] : Str) ≠ [] → (∀ ch ∈ (['z', 'a', 'b'] : Str), 'a' ≤ ch) →
      handleSingleLetterWord tImmortal ['z', 'a', 'b'] = none →
      jsGet tImmortal.meaningToWordMap ['z', 'a', 'b'] = none →
      pluralStep tImmortal opts ['z', 'a', 'b'] = none →
      fuzzyStep tImmortal opts ['z', 'a', 'b'] = none →
      constructionStep tImmortal opts ['z', 'a', 'b'] = some c →
      translateWord tImmortal opts ['z', 'a', 'b'] st wa cd =
        (c.word, { st with constructed := st.constructed + 1 },
          jsSet wa c.word (analyzeRoots tImmortal c.word),
          jsSet cd ['z', 'a', 'b'] ⟨['z', 'a', 'b'], c.word,
            Method.constructed, c.explanation, c.originalRoots⟩)) :=
  c7_construction_amended tImmortal ['z', 'a', 'b'] (by decide)

/-! ## Claim C6: whole-input phrase matching -/

theorem scoreLT_irrefl (a : Score) : scoreLT a a = false := by
  unfold scoreLT
  rw [decide_eq_false_iff_not]
  exact Nat.lt_irrefl _

theorem scoreLT_trans {a b c : Score} (hbd : 0 < b.den) (hcd : 0 < c.den)
    (h1 : scoreLT a b = true) (h2 : scoreLT b c = true) :
    scoreLT a c = true := by
  unfold scoreLT at *
  rw [decide_eq_true_eq] at h1 h2 ⊢
  have had : 0 < a.den := by
    rcases Nat.eq_zero_or_pos a.den with h0 | h0
    · rw [h0, Nat.mul_zero] at h1
      exact absurd h1 (Nat.not_lt_zero _)
    · exact h0
  have m1 : a.num * b.den * c.den < b.num * a.den * c.den :=
    mul_lt_mul_of_pos_right h1 hcd
  have m2 : b.num * c.den * a.den < c.num * b.den * a.den :=
    mul_lt_mul_of_pos_right h2 had
  have key : a.num * c.den * b.den < c.num * a.den * b.den := by
    calc a.num * c.den * b.den = a.num * b.den * c.den := by ring
      _ < b.num * a.den * c.den := m1
      _ = b.num * c.den * a.den := by ring
      _ < c.num * b.den * a.den := m2
      _ = c.num * a.den * b.den := by ring
  exact Nat.lt_of_mul_lt_mul_right key

theorem scoreLT_chain {a b c : Score} (had : 0 < a.den) (hcd : 0 < c.den)
    (h1 : scoreLT a b = true) (h2 : scoreLT a c = false) :
    scoreLT b c = false := by
  unfold scoreLT at *
  rw [decide_eq_true_eq] at h1
  rw [decide_eq_false_iff_not] at h2 ⊢
  intro h3
  push_neg at h2
  have m1 : a.num * b.den * c.den < b.num * a.den * c.den :=
    mul_lt_mul_of_pos_right h1 hcd
  have m3 : b.num * c.den * a.den < c.num * b.den * a.den :=
    mul_lt_mul_of_pos_right h3 had
  have m2 : c.num * a.den * b.den ≤ a.num * c.den * b.den :=
    Nat.mul_le_mul h2 (Nat.le_refl b.den)
  have key : a.num * b.den * c.den < a.num * b.den * c.den := by
    calc a.num * b.den * c.den < b.num * a.den * c.den := m1
      _ = b.num * c.den * a.den := by ring
      _ < c.num * b.den * a.den := m3
      _ = c.num * a.den * b.den := by ring
      _ ≤ a.num * c.den * b.den := m2
      _ = a.num * b.den * c.den := by ring
  exact Nat.lt_irrefl _ key

theorem phraseCandidateScore_pos {text p : Str} (ht : text ≠ []) {sc : Score}
    (h : phraseCandidateScore text p = some sc) : 0 < sc.num ∧ 0 < sc.den := by
  unfold phraseCandidateScore at h
  split at h
  · rename_i hsp
    have hp : 0 < p.length := by
      unfold containsSub at hsp
      rw [decide_eq_true_eq] at hsp
      have hle := hsp.length_le
      simp at hle
      omega
    have htl : 0 < text.length := List.length_pos.mpr ht
    split at h
    · rw [Option.some.injEq] at h
      rw [← h]
      exact ⟨hp, htl⟩
    · split at h
      · rw [Option.some.injEq] at h
        rw [← h]
        exact ⟨htl, hp⟩
      · cases h
  · cases h

/-- Invariant of the phrase-scoring loop: the accumulated score has a
positive denominator, never decreases, is the winning entry's own score,
and no scanned candidate strictly beats it. -/
theorem phraseScanFold_strong (text : Str) (ht : text ≠ []) :
    ∀ (L : List (Str × Str)) (acc : PhraseAcc),
      0 < acc.score.den →
      (∀ e0, acc.best = some e0 →
        phraseCandidateScore text e0.1 = some acc.score) →
      0 < (L.foldl (phraseScanStep text) acc).score.den ∧
      ((L.foldl (phraseScanStep text) acc).score = acc.score ∨
        scoreLT acc.score (L.foldl (phraseScanStep text) acc).score = true) ∧
      (∀ e0, (L.foldl (phraseScanStep text) acc).best = some e0 →
        phraseCandidateScore text e0.1 =
          some (L.foldl (phraseScanStep text) acc).score ∧
        (e0 ∈ L ∨ acc.best = some e0)) ∧
      (∀ e' ∈ L, ∀ sc', phraseCandidateScore text e'.1 = some sc' →
        scoreLT (L.foldl (phraseScanStep text) acc).score sc' = false) := by
  intro L
  induction L with
  | nil =>
    intro acc hden hbest
    refine ⟨hden, Or.inl rfl, ?_, ?_⟩
    · intro e0 h0
      exact ⟨hbest e0 h0, Or.inr h0⟩
    · intro e' he'
      cases he'
  | cons e rest ih =>
    intro acc hden hbest
    rw [List.foldl_cons]
    cases hpc : phraseCandidateScore text e.1 with
    | none =>
      have hstep : phraseScanStep text acc e = acc := by
        unfold phraseScanStep
        rw [hpc]
      rw [hstep]
      obtain ⟨hA, hB, hC, hD⟩ := ih acc hden hbest
      refine ⟨hA, hB, ?_, ?_⟩
      · intro e0 h0
        obtain ⟨hx, hy⟩ := hC e0 h0
        exact ⟨hx, hy.imp (List.mem_cons_of_mem e) id⟩
      · intro e' he' sc' hsc'
        rcases List.mem_cons.mp he' with he1 | he1
        · rw [he1, hpc] at hsc'
          cases hsc'
        · exact hD e' he1 sc' hsc'
    | some sc =>
      have hpos := phraseCandidateScore_pos ht hpc
      by_cases hlt : scoreLT acc.score sc = true
      · have hstep : phraseScanStep text acc e = ⟨some e, sc⟩ := by
          unfold phraseScanStep
          rw [hpc]
          dsimp only
          rw [if_pos hlt]
        rw [hstep]
        obtain ⟨hA, hB, hC, hD⟩ := ih ⟨some e, sc⟩ hpos.2
          (by
            intro e0 h0
            have h' : some e = some e0 := h0
            rw [← Option.some.inj h']
            exact hpc)
        refine ⟨hA, ?_, ?_, ?_⟩
        · rcases hB with hB1 | hB2
          · right
            rw [hB1]
            exact hlt
          · right
            exact scoreLT_trans hpos.2 hA hlt hB2
        · intro e0 h0
          obtain ⟨hx, hy⟩ := hC e0 h0
          refine ⟨hx, ?_⟩
          rcases hy with hy1 | hy2
          · exact Or.inl (List.mem_cons_of_mem e hy1)
          · have h' : some e = some e0 := hy2
            left
            rw [← Option.some.inj h']
            exact List.mem_cons_self e rest
        · intro e' he' sc' hsc'
          rcases List.mem_cons.mp he' with he1 | he1
          · rw [he1, hpc] at hsc'
            rw [Option.some.injEq] at hsc'
            rw [← hsc']
            rcases hB with hB1 | hB2
            · rw [hB1]
              exact scoreLT_irrefl sc
            · exact scoreLT_chain hpos.2 hpos.2 hB2 (scoreLT_irrefl sc)
          · exact hD e' he1 sc' hsc'
      · have hstep : phraseScanStep text acc e = acc := by
          unfold phraseScanStep
          rw [hpc]
          dsimp only
          rw [if_neg hlt]
        rw [hstep]
        obtain ⟨hA, hB, hC, hD⟩ := ih acc hden hbest
        have hltf : scoreLT acc.score sc = false := by
          cases hx : scoreLT acc.score sc
          · rfl
          · exact absurd hx hlt
        refine ⟨hA, hB, ?_, ?_⟩
        · intro e0 h0
          obtain ⟨hx, hy⟩ := hC e0 h0
          exact ⟨hx, hy.imp (List.mem_cons_of_mem e) id⟩
        · intro e' he' sc' hsc'
          rcases List.mem_cons.mp he' with he1 | he1
          · rw [he1, hpc] at hsc'
            rw [Option.some.injEq] at hsc'
            rw [← hsc']
            rcases hB with hB1 | hB2
            · rw [hB1]
              exact hltf
            · exact scoreLT_chain hden hpos.2 hB2 hltf
          · exact hD e' he1 sc' hsc'

/-- Lexicon ZIRDO / I am: the cleaned multi-word meaning `i am` lands in
the phrase map. -/
def tZirdo : Translator :=
  mkTranslator [⟨['Z', 'I', 'R', 'D', 'O'], ['I', ' ', 'a', 'm']⟩] []

/-- Claim C6 (confirmed): the whole-input matcher first tries the exact
case-insensitive phrase-map lookup; when the exact stages fail, a fuzzy
result is always a phrase-map entry scored by two-way containment
(shorter length over longer), strictly above 7/10, that no other candidate
strictly beats; an accepted phrase produces a result whose stats are
exactly one direct match in one token and whose phonetic and symbol texts
are the renderings of the single resolved word; and `translate` returns
that result unchanged. -/
theorem c6_phrase_matcher (T : Translator) (text : Str) :
    (∀ w, singleAlpha text = false →
      jsGet T.phraseMap (toLowerS text) = some w →
      checkForPhraseMatch T text =
        (createPhraseMatchResult T text w
          (Explanation.completePhrase text w)).map some) ∧
    (∀ pm, text ≠ [] →
      T.phraseMap.find? (fun e => toLowerS e.1 = toLowerS text) = none →
      findFuzzyPhraseMatch T text = some pm →
      ∃ e, e ∈ T.phraseMap ∧ ∃ sc,
        phraseCandidateScore text e.1 = some sc ∧
        scoreLT ⟨7, 10⟩ sc = true ∧
        pm = ⟨e.1, e.2, Explanation.phraseSimilar text e.1 e.2⟩ ∧
        ∀ e' ∈ T.phraseMap, ∀ sc',
          phraseCandidateScore text e'.1 = some sc' →
          scoreLT sc sc' = false) ∧
    (∀ w expl r, createPhraseMatchResult T text w expl = Except.ok r →
      r.translationText = w ∧ r.stats = ⟨1, 0, 0, 0, 1⟩ ∧
      r.phoneticText = convertToPhonetic T w ∧
      convertToSymbols T w = Except.ok r.symbolText) ∧
    (∀ opts r, normalizeWS text ≠ [] → opts.checkPhrases = true →
      checkForPhraseMatch T (normalizeWS text) = Except.ok (some r) →
      translate T text opts = Except.ok r) := by
  refine ⟨?_, ?_, ?_, ?_⟩
  · intro w hsa hjs
    unfold checkForPhraseMatch
    simp only [hsa, Bool.false_eq_true, if_false]
    rw [hjs]
  · intro pm hne hfind hffm
    unfold findFuzzyPhraseMatch at hffm
    rw [hfind] at hffm
    dsimp only at hffm
    split at hffm
    · rename_i e0 hbe
      split at hffm
      · rename_i hacc
        have hsc710 : scoreLT ⟨7, 10⟩
            (T.phraseMap.foldl (phraseScanStep text) ⟨none, ⟨0, 1⟩⟩).score =
            true := by
          simp only [Bool.and_eq_true] at hacc
          exact hacc.2
        rw [Option.some.injEq] at hffm
        obtain ⟨hA, hB, hC, hD⟩ := phraseScanFold_strong text hne
          T.phraseMap ⟨none, ⟨0, 1⟩⟩ (by decide)
          (by intro e0' hb; cases hb)
        obtain ⟨hsc0, hmem0⟩ := hC e0 hbe
        rcases hmem0 with hmem | habs
        · exact ⟨e0, hmem,
            (T.phraseMap.foldl (phraseScanStep text) ⟨none, ⟨0, 1⟩⟩).score,
            hsc0, hsc710, hffm.symm, hD⟩
        · cases habs
      · cases hffm
    · cases hffm
  · intro w expl r h
    unfold createPhraseMatchResult at h
    dsimp only at h
    split at h
    · exact Except.noConfusion h
    · rename_i sym heq
      rw [Except.ok.injEq] at h
      subst h
      exact ⟨rfl, rfl, rfl, heq⟩
  · intro opts r hnem hcp hcm
    unfold translate
    dsimp only
    rw [if_neg hnem]
    simp only [hcp, if_true]
    rw [hcm]

theorem c6_phrase_matcher_witness :
    (∀ w, singleAlpha ['x', 'i', ' ', 'a', 'm'] = false →
      jsGet tZirdo.phraseMap (toLowerS ['x', 'i', ' ', 'a', 'm']) = some w →
      checkForPhraseMatch tZirdo ['x', 'i', ' ', 'a', 'm'] =
        (createPhraseMatchResult tZirdo ['x', 'i', ' ', 'a', 'm'] w
          (Explanation.completePhrase ['x', 'i', ' ', 'a', 'm'] w)).map some) ∧
    (∀ pm, (['x', 'i', ' ', 'a', 'm'] : Str) ≠ [] →
      tZirdo.phraseMap.find?
        (fun e => toLowerS e.1 = toLowerS ['x', 'i', ' ', 'a', 'm']) = none →
      findFuzzyPhraseMatch tZirdo ['x', 'i', ' ', 'a', 'm'] = some pm →
      ∃ e, e ∈ tZirdo.phraseMap ∧ ∃ sc,
        phraseCandidateScore ['x', 'i', ' ', 'a', 'm'] e.1 = some sc ∧
        scoreLT ⟨7, 10⟩ sc = true ∧
        pm = ⟨e.1, e.2,
          Explanation.phraseSimilar ['x', 'i', ' ', 'a', 'm'] e.1 e.2⟩ ∧
        ∀ e' ∈ tZirdo.phraseMap, ∀ sc',
          phraseCandidateScore ['x', 'i', ' ', 'a', 'm'] e'.1 = some sc' →
          scoreLT sc sc' = false) ∧
    (∀ w expl r,
      createPhraseMatchResult tZirdo ['x', 'i', ' ', 'a', 'm'] w expl =
        Except.ok r →
      r.translationText = w ∧ r.stats = ⟨1, 0, 0, 0, 1⟩ ∧
      r.phoneticText = convertToPhonetic tZirdo w ∧
      convertToSymbols tZirdo w = Except.ok r.symbolText) ∧
    (∀ opts r, normalizeWS ['x', 'i', ' ', 'a', 'm'] ≠ [] →
      opts.checkPhrases = true →
      checkForPhraseMatch tZirdo (normalizeWS ['x', 'i', ' ', 'a', 'm']) =
        Except.ok (some r) →
      translate tZirdo ['x', 'i', ' ', 'a', 'm'] opts = Except.ok r) :=
  c6_phrase_matcher tZirdo ['x', 'i', ' ', 'a', 'm']

end Enoch
